import Mathlib

/-!
Verification of the `labctl` service-dependency, compose-generation,
validation and configuration layers.

The definitions below are a shallow embedding of the Python sources:

* `cli/labctl/core/services/deps.py`   — dependency graph and resolver
* `cli/labctl/core/compose.py`         — compose generator (environment synthesis)
* `cli/labctl/core/validation.py`      — configuration validator (port conflicts)
* `cli/labctl/core/config.py`          — `LabConfig.get_service_urls`
* `cli/labctl/core/services/schema.py` — schema models and validators

Python dictionaries are embedded as association lists in insertion order,
Python sets as deduplicated lists (membership is what matters; iteration
order of a Python set is unspecified, and no theorem below depends on it).
Python exceptions are embedded with `Except`.  Loops whose termination is
not structural are embedded with an explicit fuel parameter; the fuel is
chosen large enough and lemmas below prove it is never exhausted on the
executions the theorems speak about.
-/

namespace Labctl

/-- Service identifier (Python `str`). -/
abbrev SId := String

/-- The part of `ServiceSchema` (schema.py) that the dependency layer reads:
`name`, `category` and `dependencies`. -/
structure ServiceSchema where
  name : String
  category : String
  dependencies : List SId
deriving Repr, DecidableEq

/-- `Dict[str, ServiceSchema]` in insertion order. -/
abbrev Schemas := List (SId × ServiceSchema)

/-- Keys of the schema dictionary (`self.schemas.keys()`). -/
def keysOf (schemas : Schemas) : List SId := schemas.map (·.1)

/-- First-match association lookup (Python `dict[k]` / `dict.get(k)`;
dict keys are unique, so first match is the match). -/
def lookupSchema (schemas : Schemas) (s : SId) : Option ServiceSchema :=
  match schemas.find? (fun p => p.1 = s) with
  | some p => some p.2
  | none => none

/-- `DependencyGraph._build_graph` followed by `.get(service, set())`:
the dependency set of a service, `set(schema.dependencies)` for known
services and the empty set otherwise.  `dedup` models the `set(...)`. -/
def graphDeps (schemas : Schemas) (s : SId) : List SId :=
  match lookupSchema schemas s with
  | some sc => sc.dependencies.dedup
  | none => []

/-- `DependencyGraph._build_reverse_graph` followed by `.get(service, set())`:
the services whose dependency set contains `s`. -/
def reverseDeps (schemas : Schemas) (s : SId) : List SId :=
  (schemas.filter (fun p => s ∈ p.2.dependencies.dedup)).map (·.1)

/-- The three exception classes of deps.py:
`MissingDependencyError(service, missing_deps)`,
`CircularDependencyError(cycle)` and the bare `DependencyError(msg)`. -/
inductive DepErr where
  | missing (service : String) (missingDeps : List SId)
  | circular (cycle : List SId)
  | other (msg : String)
deriving Repr, DecidableEq

/-- The breadth-first closure loop of `resolve_dependencies`:
pop a service, append its not-yet-required dependencies to both the
required set (`acc`) and the work queue.  `g` is the dependency (or, for
`include_dependents`, the reverse dependency) function.  The fuel is
spent one unit per loop iteration. -/
def closureLoop (g : SId → List SId) : Nat → List SId → List SId → List SId
  | 0, _, acc => acc
  | _ + 1, [], acc => acc
  | fuel + 1, s :: rest, acc =>
      let fresh := (g s).filter (fun d => !acc.contains d)
      closureLoop g fuel (rest ++ fresh) (acc ++ fresh)

/-- Fuel that provably drains `closureLoop` (see `closureLoop_spec`):
one unit per initially queued service plus one per dependency edge. -/
def closureFuel (schemas : Schemas) (selected : List SId) : Nat :=
  selected.length + (schemas.map (fun p => p.2.dependencies.dedup.length)).sum + 1

/-- `required_services` after the dependency-collection loop of
`resolve_dependencies`: the BFS closure of the selection under `graphDeps`.
`selected.dedup` models `set(selected_services)`. -/
def closureList (schemas : Schemas) (selected : List SId) : List SId :=
  closureLoop (graphDeps schemas) (closureFuel schemas selected) selected selected.dedup

/-- The induced dependency function of `_topological_sort`:
`self._graph.get(service, set()) & services`. -/
def subgraphOf (g : SId → List SId) (services : List SId) (s : SId) : List SId :=
  (g s).filter (fun d => services.contains d)

/-- One pass of Kahn's algorithm as written in `_topological_sort`:
pop the queue head, emit it, decrement the in-degree of every service in
the subset whose dependency set contains it, and enqueue those whose
in-degree hits zero. -/
def kahnLoop (g : SId → List SId) (services : List SId) :
    Nat → List SId → List SId → (SId → Nat) → List SId
  | 0, _, result, _ => result
  | _ + 1, [], result, _ => result
  | fuel + 1, s :: qs, result, indeg =>
      let newly := services.filter
        (fun d => (subgraphOf g services d).contains s && indeg d == 1)
      let indeg' := fun d =>
        if (subgraphOf g services d).contains s ∧ d ∈ services then indeg d - 1
        else indeg d
      kahnLoop g services fuel (qs ++ newly) (result ++ [s]) indeg'

mutual

/-- `_detect_cycles_in_subset.visit`: raise (as `.error`) the cycle
`path[path.index(service):]` upon meeting a service already on the
recursion stack; otherwise mark it visited and recurse into its
dependencies that lie inside `set`.  The recursion stack and the path
always hold the same services, so only the path is carried. -/
def dfsVisit (g : SId → List SId) (set : List SId) (fuel : Nat) (v : SId)
    (path visited : List SId) : Except (List SId) (List SId) :=
  match fuel with
  | 0 => .ok visited
  | fuel + 1 =>
    if v ∈ path then .error (path.drop (List.indexOf v path))
    else if v ∈ visited then .ok visited
    else dfsChildren g set fuel ((g v).filter (fun d => set.contains d))
      (path ++ [v]) (visited ++ [v])
termination_by structural fuel

/-- The `for dep in ...: visit(dep)` loop inside `visit`: thread the
visited set through the children, propagating the first raised cycle. -/
def dfsChildren (g : SId → List SId) (set : List SId) (fuel : Nat)
    (ds : List SId) (path visited : List SId) : Except (List SId) (List SId) :=
  match fuel with
  | 0 => .ok visited
  | fuel + 1 =>
    match ds with
    | [] => .ok visited
    | d :: rest =>
      match dfsVisit g set fuel d path visited with
      | .error c => .error c
      | .ok visited' => dfsChildren g set fuel rest path visited'
termination_by structural fuel

end

/-- Fuel for the subset DFS: twice the subset size comfortably bounds the
recursion depth (the path is duplicate-free inside the subset). -/
def dfsFuel (set : List SId) : Nat := 2 * set.length + 3

/-- The `for service in services: if service not in visited: visit(service)`
driver loop of `_detect_cycles_in_subset`. -/
def dfsTop (g : SId → List SId) (set : List SId) :
    List SId → List SId → Except (List SId) Unit
  | [], _ => .ok ()
  | s :: rest, visited =>
    if s ∈ visited then dfsTop g set rest visited
    else
      match dfsVisit g set (dfsFuel set) s [] visited with
      | .error c => .error c
      | .ok visited' => dfsTop g set rest visited'

/-- `_detect_cycles_in_subset(services, subgraph)`: `.error cycle` embeds the
raised `CircularDependencyError(cycle)`. -/
def detectCyclesInSubset (g : SId → List SId) (set : List SId) :
    Except (List SId) Unit :=
  dfsTop g set set []

/-- Python `", ".join(parts)` (and friends). -/
def joinSep (sep : String) : List String → String
  | [] => ""
  | [x] => x
  | x :: xs => x ++ sep ++ joinSep sep xs

/-- `_topological_sort(services)`: build the induced subgraph and initial
in-degrees, run Kahn's algorithm, and—if the order is incomplete—re-run
cycle detection on the residue, re-raising its `CircularDependencyError`,
or failing that a bare `DependencyError`. -/
def topologicalSort (g : SId → List SId) (services : List SId) :
    Except DepErr (List SId) :=
  let indeg0 := fun s => (subgraphOf g services s).length
  let queue0 := services.filter (fun s => indeg0 s == 0)
  let result := kahnLoop g services (services.length + 1) queue0 [] indeg0
  if result.length = services.length then .ok result
  else
    let remaining := services.filter (fun s => !result.contains s)
    match detectCyclesInSubset (subgraphOf g services) remaining with
    | .error cycle => .error (.circular cycle)
    | .ok _ =>
        .error (.other ("Unable to resolve dependencies for: " ++
          joinSep ", " remaining))

/-- Insertion of a string into a sorted list (ascending, lexicographic). -/
def insertSorted (x : String) : List String → List String
  | [] => [x]
  | y :: ys => if x ≤ y then x :: y :: ys else y :: insertSorted x ys

/-- Python `sorted(...)` on strings (ascending lexicographic order). -/
def sortStrings : List String → List String
  | [] => []
  | x :: xs => insertSorted x (sortStrings xs)

/-- "`needle` occurs inside `hay`" — the message mentions the name. -/
def strContains (hay needle : String) : Prop :=
  ∃ pre post, hay.data = pre ++ needle.data ++ post

/-- Every id mentioned by the dependency graph: the services plus every
dependency edge target (`_detect_cycles` can visit missing targets, whose
dependency set is empty). -/
def allGraphNodes (schemas : Schemas) : List SId :=
  keysOf schemas ++ (schemas.map (fun p => p.2.dependencies.dedup)).flatten

/-- `DependencyGraph._detect_cycles`: DFS over the whole graph, driven from
every service.  The visit filter over `allGraphNodes` is a no-op (every
dependency target is in it), so this matches the unfiltered source DFS. -/
def detectCyclesFull (schemas : Schemas) : Except (List SId) Unit :=
  dfsTop (graphDeps schemas) (allGraphNodes schemas) (keysOf schemas) []

/-- `str(CircularDependencyError(cycle))`:
`"Circular dependency detected: " + " -> ".join(cycle + [cycle[0]])`. -/
def circularMsg (cycle : List SId) : String :=
  "Circular dependency detected: " ++
    joinSep " -> " (cycle ++ [cycle.headD ""])

/-- The missing-dependency messages of `validate_dependencies`:
`f"Service \x27{service_id}\x27 has missing dependencies: {\x27, \x27.join(sorted(missing))}"`
for every service whose dependency set leaves the schema store. -/
def missingDepErrors (schemas : Schemas) : List String :=
  schemas.filterMap (fun p =>
    let missing := (p.2.dependencies.dedup).filter
      (fun d => !(keysOf schemas).contains d)
    if missing = [] then none
    else some ("Service \x27" ++ p.1 ++ "\x27 has missing dependencies: " ++
      joinSep ", " (sortStrings missing)))

/-- `DependencyGraph.validate_dependencies`: missing-dependency errors in
store order, then the stringified `CircularDependencyError` when the
full-graph cycle detection raises one. -/
def validate_dependencies (schemas : Schemas) : List String :=
  missingDepErrors schemas ++
    (match detectCyclesFull schemas with
     | .error cycle => [circularMsg cycle]
     | .ok _ => [])

/-- The nested dict returned by `get_dependency_tree`: a full node carries
`id`, `name`, `category` and a `dependencies` list; a cut-off node carries
`id`, `name` and the `truncated` marker. -/
inductive DepTree where
  | cut (id name : String) (truncated : Bool)
  | node (id name category : String) (deps : List DepTree)
deriving Repr

/-- `self.schemas[s].name`; total here, with `""` for the KeyError case
(`build_tree` only reads names of services present in the store). -/
def schemaName (schemas : Schemas) (s : SId) : String :=
  match lookupSchema schemas s with
  | some sc => sc.name
  | none => ""

/-- `self.schemas[s].category`, totalised like `schemaName`. -/
def schemaCategory (schemas : Schemas) (s : SId) : String :=
  match lookupSchema schemas s with
  | some sc => sc.category
  | none => ""

/-- `get_dependency_tree.build_tree`.  The recursion is driven by the fuel
`maxDepth - depth`, kept structural; the fuel-exhausted arm below the
depth guard is unreachable for the canonical call (see
`buildTree_flags`). -/
def buildTree (schemas : Schemas) (maxDepth : Nat) :
    Nat → SId → Nat → List SId → DepTree
  | fuel, svc, depth, visited =>
    if maxDepth ≤ depth ∨ svc ∈ visited then
      .cut svc (schemaName schemas svc) (decide (maxDepth ≤ depth))
    else
      match fuel with
      | 0 => .cut svc (schemaName schemas svc) false
      | fuel + 1 =>
          .node svc (schemaName schemas svc) (schemaCategory schemas svc)
            (((sortStrings (graphDeps schemas svc)).filter
              (fun d => (keysOf schemas).contains d)).map
              (fun d => buildTree schemas maxDepth fuel d (depth + 1)
                (visited ++ [svc])))

/-- `DependencyGraph.get_dependency_tree(service_id, max_depth)`;
`none` embeds the `return \x7b\x7d` for an unknown service. -/
def getDependencyTree (schemas : Schemas) (svc : SId) (maxDepth : Nat) :
    Option DepTree :=
  if (keysOf schemas).contains svc then
    some (buildTree schemas maxDepth maxDepth svc 0 [])
  else none

mutual

/-- Does the tree contain a cut-off node whose `truncated` marker is false? -/
def hasFalseCut : DepTree → Bool
  | .cut _ _ flag => !flag
  | .node _ _ _ deps => hasFalseCutList deps

def hasFalseCutList : List DepTree → Bool
  | [] => false
  | t :: ts => hasFalseCut t || hasFalseCutList ts

end

mutual

/-- Every cut node at nesting depth `k` (counting from `depth`) carries
`truncated = decide (maxDepth ≤ k)` — true exactly for depth-limit cuts. -/
def cutFlagsOkB (maxDepth depth : Nat) : DepTree → Bool
  | .cut _ _ flag => flag == decide (maxDepth ≤ depth)
  | .node _ _ _ deps => cutFlagsOkListB maxDepth (depth + 1) deps

def cutFlagsOkListB (maxDepth depth : Nat) : List DepTree → Bool
  | [] => true
  | t :: ts => cutFlagsOkB maxDepth depth t && cutFlagsOkListB maxDepth depth ts

end

/-- Example store with the 3-cycle A → B → C → A of claim C3. -/
def exABC : Schemas :=
  [("A", ⟨"A service", "core", ["B"]⟩),
   ("B", ⟨"B service", "core", ["C"]⟩),
   ("C", ⟨"C service", "core", ["A"]⟩)]

/-- Example store with a single dependency-free service. -/
def exSingle : Schemas := [("X", ⟨"X service", "core", []⟩)]

/-- Example store where X declares the nonexistent dependency Y. -/
def exMissingY : Schemas := [("X", ⟨"X service", "core", ["Y"]⟩)]

/-- Example store where A depends on itself. -/
def exSelfLoop : Schemas := [("A", ⟨"A service", "core", ["A"]⟩)]

/-- The Kahn run performed by `_topological_sort`: initial queue of
in-degree-zero services, initial in-degrees, empty result. -/
def kahnResult (g : SId → List SId) (services : List SId) : List SId :=
  kahnLoop g services (services.length + 1)
    (services.filter (fun s => (subgraphOf g services s).length == 0)) []
    (fun s => (subgraphOf g services s).length)

/-- `DependencyGraph.resolve_dependencies(selected_services,
include_dependents)`: validate the selection, close it under dependencies
(and, when asked, dependents), check that everything required exists, and
topologically sort. -/
def resolve_dependencies (schemas : Schemas) (selected : List SId)
    (includeDependents : Bool := false) : Except DepErr (List SId) :=
  let invalid := selected.filter (fun s => !(keysOf schemas).contains s)
  if invalid ≠ [] then .error (.missing "selection" invalid)
  else
    let required := closureList schemas selected
    let required :=
      if includeDependents then
        closureLoop (reverseDeps schemas) (closureFuel schemas selected)
          selected required
      else required
    let missing := required.filter (fun s => !(keysOf schemas).contains s)
    if missing ≠ [] then .error (.missing "resolution" missing)
    else topologicalSort (graphDeps schemas) required


/-! ### compose.py — environment synthesis -/

/-- Dynamic Python values as they appear in service configuration dicts. -/
inductive PyVal where
  | str (s : String)
  | int (n : Int)
  | bool (b : Bool)
  | none
deriving Repr, DecidableEq

/-- Python `str(value)` for the values above. -/
def pyStr : PyVal → String
  | .str s => s
  | .int n => toString n
  | .bool true => "True"
  | .bool false => "False"
  | .none => "None"

/-- Python truthiness of the values above. -/
def pyTruthy : PyVal → Bool
  | .str s => s ≠ ""
  | .int n => n ≠ 0
  | .bool b => b
  | .none => false

/-- A service configuration in dict form (the `isinstance(service_config,
dict)` paths of compose.py; attribute access on model objects performs the
same per-field lookup). -/
abbrev SvcDict := List (String × PyVal)

/-- Python `dict.get(k)` (`None` for a missing key is `Option.none`). -/
def dictGet (d : SvcDict) (k : String) : Option PyVal :=
  (d.find? (fun p => p.1 = k)).map (·.2)

/-- Python truthiness of an `Optional[str]` (`None` and `""` are falsy). -/
def strTruthy : Option String → Bool
  | some s => s ≠ ""
  | none => false

/-- `ComposeEnvSource` (schema.py): the per-variable resolution recipe.
`value_map`/`value_if` are dicts; `[]` stands for both `None` and `{}`
(they are indistinguishable under Python truthiness, the only way the
generator inspects them). -/
structure ComposeEnvSource where
  key : String
  from_field : Option String := Option.none
  from_service : Option String := Option.none
  value : Option String := Option.none
  template : Option String := Option.none
  generate : Option String := Option.none
  condition : Option String := Option.none
  value_map : List (String × String) := []
  value_if : List (String × PyVal) := []
deriving Repr, DecidableEq

/-- The slice of the generator configuration that environment synthesis
reads: a global `env_vars` table and the per-service `custom_env` maps. -/
structure GenConfig where
  env_vars : List (String × PyVal) := []
  custom_env : List (String × List (String × String)) := []
deriving Repr, DecidableEq

/-- Python `s.split(sep, 1)` at the character level: `some (before, after)`
around the first occurrence, `none` when the separator does not occur.
(Defined on `List Char` so that it evaluates inside the kernel.) -/
def splitFirst (sep : Char) : List Char → Option (List Char × List Char)
  | [] => Option.none
  | c :: cs =>
      if c = sep then some ([], cs)
      else (splitFirst sep cs).map (fun p => (c :: p.1, p.2))

/-- Python `s.upper()` (the identifiers involved are ASCII). -/
def strUpper (s : String) : String := String.mk (s.data.map Char.toUpper)

/-- Python `s.startswith(pre)`. -/
def strStartsWith (s pre : String) : Bool := pre.data.isPrefixOf s.data

/-- `ComposeGenerator._get_custom_environment(service_id)`:
`self.config["custom_env"].get(service_id, \x7b\x7d)`. -/
def custom_environment (cfg : GenConfig) (serviceId : String) :
    List (String × String) :=
  ((cfg.custom_env.find? (fun p => p.1 = serviceId)).map (·.2)).getD []

/-- The `from_field` fallback of `_build_environment_from_schema`: value
from the service dict; if that is `None`, a deferred reference
`"$\x7bFIELD\x7d"` when `FIELD = from_field.upper()` is in the global
`env_vars` table, else nothing. -/
def resolveFromField (cfg : GenConfig) (sc : SvcDict) (f : String) :
    Option PyVal :=
  let fallback : Option PyVal :=
    if (cfg.env_vars.map (·.1)).contains (strUpper f) then
      some (.str ("$\x7b" ++ strUpper f ++ "\x7d"))
    else Option.none
  match dictGet sc f with
  | some v => if v = PyVal.none then fallback else some v
  | Option.none => fallback

/-- The `from_service` branch:
`service_name, field = from_service.split(".", 1)` and then the f-string
`f"$\x7bservice_name.upper()\x7d_\x7bfield.upper()\x7d"` — note the `$` is a
literal, so the produced reference has no braces.  (For a `from_service`
without a dot the source raises `ValueError` while unpacking; here the
field part is empty.) -/
def fromServiceRef (fs : String) : String :=
  match splitFirst '.' fs.data with
  | some (name, field) =>
      "$" ++ strUpper (String.mk name) ++ "_" ++ strUpper (String.mk field)
  | Option.none => "$" ++ strUpper fs ++ "_"

/-- `ComposeGenerator._evaluate_condition(condition, service_config)` on a
dict config. -/
def evaluate_condition (sc : SvcDict) (condition : String) : Bool :=
  if condition = "" then true
  else if strStartsWith condition "has_" then
    match dictGet sc (condition.drop 4) with
    | some v => v ≠ PyVal.none
    | Option.none => false
  else
    match splitFirst '=' condition.data with
    | some (field, expected) =>
        pyStr ((dictGet sc (String.mk field)).getD PyVal.none) =
          String.mk expected
    | Option.none =>
        if strStartsWith condition "!" then
          !(pyTruthy ((dictGet sc (condition.drop 1)).getD PyVal.none))
        else pyTruthy ((dictGet sc condition).getD PyVal.none)

/-- The branch chain of `_build_environment_from_schema` computing
`env_value` for one `ComposeEnvSource`, on a dict service config.  The
chain tests, in source order: `from_field`, `from_service`, `value`,
`template`, `value_map and from_field`.  `subst` stands for
`self._substitute_template(·, service_id, service_config)`, whose
internals no claim depends on. -/
def resolveEnvValue (subst : String → String) (cfg : GenConfig)
    (sc : SvcDict) (e : ComposeEnvSource) : Option PyVal :=
  if strTruthy e.from_field then
    resolveFromField cfg sc (e.from_field.getD "")
  else if strTruthy e.from_service then
    some (.str (fromServiceRef (e.from_service.getD "")))
  else if strTruthy e.value then
    some (.str (e.value.getD ""))
  else if strTruthy e.template then
    some (.str (subst (e.template.getD "")))
  else if e.value_map ≠ [] ∧ strTruthy e.from_field then
    match dictGet sc (e.from_field.getD "") with
    | some v =>
        if pyTruthy v then
          match e.value_map.find? (fun p => p.1 = pyStr v) with
          | some p => some (.str p.2)
          | Option.none => Option.none
        else Option.none
    | Option.none => Option.none
  else Option.none

/-- One loop iteration of `_build_environment_from_schema`: resolve the
value, honour the `condition` guard (`continue`), and render
`f"\x7benv_key\x7d=\x7benv_value\x7d"` when a value was found. -/
def buildEnvEntry (subst : String → String) (cfg : GenConfig) (sc : SvcDict)
    (e : ComposeEnvSource) : Option String :=
  if strTruthy e.condition ∧ !evaluate_condition sc (e.condition.getD "") then
    Option.none
  else (resolveEnvValue subst cfg sc e).map (fun v => e.key ++ "=" ++ pyStr v)

/-- `ComposeGenerator._build_environment_from_schema`: the schema-driven
entries in order, then the service's `custom_env` entries appended at the
end. -/
def build_environment_from_schema (subst : String → String) (cfg : GenConfig)
    (serviceId : String) (sc : SvcDict)
    (envSources : List ComposeEnvSource) : List String :=
  envSources.filterMap (buildEnvEntry subst cfg sc) ++
    (custom_environment cfg serviceId).map (fun p => p.1 ++ "=" ++ p.2)

/-- Split an env-list entry `"KEY=VALUE"` at the first `=`
(Python `split("=", 1)`). -/
def parseEnvEntry (s : String) : String × String :=
  match splitFirst '=' s.data with
  | some (k, rest) => (String.mk k, String.mk rest)
  | Option.none => (s, "")

/-- The effective binding of `key` when the environment list is read the
way docker compose applies it: the last entry for a key wins. -/
def lastBinding (env : List String) (key : String) : Option String :=
  (env.reverse.find? (fun s => (parseEnvEntry s).1 = key)).map
    (fun s => (parseEnvEntry s).2)

/-- C5 example: one schema-driven literal entry `FOO=bar`. -/
def exEnvFoo : List ComposeEnvSource := [{ key := "FOO", value := some "bar" }]

/-- C5 example: the service carries `custom_env = \x7b"FOO": "baz"\x7d`. -/
def exCfgFoo : GenConfig := { custom_env := [("svc", [("FOO", "baz")])] }

/-- C6 example: an entry with both a literal value and a resolvable
`from_field`. -/
def exEnvBoth : ComposeEnvSource :=
  { key := "KEY", from_field := some "port", value := some "lit" }

/-- C6 example: the service config resolves `port` to `8080`. -/
def exScPort : SvcDict := [("port", .int 8080)]

/-! ### validation.py — port conflicts, and config.py — service URLs -/

/-- The slice of `BaseServiceConfig` (and its service-specific subclasses)
that the embedded checks read; an `Option` field stands for "attribute
missing or None" (`hasattr`-guarded access). -/
structure BaseServiceConfig where
  enabled : Bool := false
  domain : Option String := Option.none
  port : Option Int := Option.none
  web_port : Option Int := Option.none
  http_port : Option Int := Option.none
  external_port : Option Int := Option.none
  dns_port : Option Int := Option.none
deriving Repr, DecidableEq

/-- One `if hasattr(config, k) and config.k: ports.append(config.k)` step
(0 and None are falsy). -/
def optPort (o : Option Int) : List Int :=
  match o with
  | some p => if p ≠ 0 then [p] else []
  | Option.none => []

/-- The ports collected from one service by `_check_port_conflicts`, in
source order of the five keys. -/
def collectPorts (c : BaseServiceConfig) : List Int :=
  optPort c.port ++ optPort c.web_port ++ optPort c.http_port ++
    optPort c.external_port ++ optPort c.dns_port

/-- The (port, service) pairs in the order `_check_port_conflicts` visits
them. -/
def portPairs (services : List (String × BaseServiceConfig)) :
    List (Int × String) :=
  (services.map (fun sp => (collectPorts sp.2).map (fun p => (p, sp.1)))).flatten

/-- `port_usage[port].append(service_id)` with dict insertion order. -/
def addUsage (u : List (Int × List String)) (p : Int) (sid : String) :
    List (Int × List String) :=
  if (u.map (·.1)).contains p then
    u.map (fun q => if q.1 = p then (q.1, q.2 ++ [sid]) else q)
  else u ++ [(p, [sid])]

/-- The `port_usage` dict of `_check_port_conflicts`. -/
def portUsage (services : List (String × BaseServiceConfig)) :
    List (Int × List String) :=
  (portPairs services).foldl (fun u pp => addUsage u pp.1 pp.2) []

/-- `ConfigurationValidator._check_port_conflicts(services)`: one error per
port used more than once, naming every user. -/
def check_port_conflicts (services : List (String × BaseServiceConfig)) :
    List String :=
  ((portUsage services).filter (fun e => 1 < e.2.length)).map
    (fun e => "Port " ++ toString e.1 ++ " conflict: used by services " ++
      joinSep ", " e.2)

/-- `CoreConfig` (config.py). -/
structure CoreConfig where
  domain : String
  email : String := ""
  timezone : String := "UTC"
deriving Repr, DecidableEq

/-- The slice of `LabConfig` that `get_service_urls` reads. -/
structure LabConfig where
  core : CoreConfig
  services : List (String × BaseServiceConfig) := []
deriving Repr, DecidableEq

/-- `LabConfig.get_enabled_services()`. -/
def get_enabled_services (services : List (String × BaseServiceConfig)) :
    List (String × BaseServiceConfig) :=
  services.filter (fun p => p.2.enabled)

/-- `LabConfig.get_service_urls()`: one `https://` URL per enabled service,
from the explicit `domain` field when it is set and truthy, else
`f"\x7bservice_id\x7d.\x7bbase_domain\x7d"`. -/
def get_service_urls (cfg : LabConfig) : List (String × String) :=
  (get_enabled_services cfg.services).map (fun p =>
    (p.1,
      if strTruthy p.2.domain then "https://" ++ p.2.domain.getD ""
      else "https://" ++ (p.1 ++ "." ++ cfg.core.domain)))

/-- C8 example: core domain `example.com`, `grafana` enabled with no
explicit domain. -/
def exCfgUrls : LabConfig :=
  { core := { domain := "example.com", email := "admin@example.com" },
    services := [("grafana", { enabled := true })] }

/-! ### schema.py — field and service-schema validation -/

/-- `FieldType` (schema.py). -/
inductive FieldType where
  | string | password | boolean | integer | choice | multiselect | textarea
deriving Repr, DecidableEq

/-- The slice of `FieldSchema` read by the embedded validators.  The
remaining optional presentation fields (`placeholder`, `validate_regex`,
`default`, `generate`, `length`, `mask`, `show_if`, `hidden_if`,
`depends_on`) are not read by any check a claim depends on and are
omitted. -/
structure FieldSchema where
  key : String
  label : String := ""
  type : FieldType
  description : String := ""
  required : Bool := false
  choices : List String := []
  min : Option Int := Option.none
  max : Option Int := Option.none
  min_selections : Option Int := Option.none
  max_selections : Option Int := Option.none
deriving Repr, DecidableEq

/-- The `validate_key` regex `^[a-zA-Z][a-zA-Z0-9_]*$`. -/
def isFieldKeyValid (k : String) : Bool :=
  match k.data with
  | [] => false
  | c :: rest => c.isAlpha && rest.all (fun ch => ch.isAlphanum || ch == '_')

/-- The per-field pydantic validators of `FieldSchema`:
`validate_choices` (choice/multiselect need truthy choices),
`validate_int_bounds` (min/max only on integer fields), and
`validate_multiselect_bounds`, beside the key regex. -/
def validateFieldSchema (f : FieldSchema) : Bool :=
  isFieldKeyValid f.key &&
  (match f.type with
   | .choice | .multiselect => !f.choices.isEmpty
   | _ => true) &&
  (f.type == FieldType.integer || (f.min.isNone && f.max.isNone)) &&
  (f.type == FieldType.multiselect ||
    (f.min_selections.isNone && f.max_selections.isNone))

/-- The slice of `ServiceSchema` (schema.py) the embedded validators read
(the `compose` section and maturity metadata are not consulted by them). -/
structure ServiceSchemaDoc where
  id : String
  name : String
  category : String
  description : String := ""
  dependencies : List String := []
  fields : List FieldSchema
deriving Repr, DecidableEq

/-- The `validate_id` regex `^[a-z][a-z0-9_]*$`. -/
def isServiceIdValid (s : String) : Bool :=
  match s.data with
  | [] => false
  | c :: rest => c.isLower && rest.all (fun ch => ch.isLower || ch.isDigit || ch == '_')

/-- `ServiceSchema.validate_enabled_field`:
`any(field.key == "enabled" for field in v)`. -/
def validate_enabled_field (fields : List FieldSchema) : Bool :=
  fields.any (fun f => f.key == "enabled")

/-- `ServiceSchema` acceptance: the document-level pydantic validators
(`validate_id`, `validate_fields_unique`, `validate_enabled_field`) plus
the per-field validators; a document failing any of them raises
`ValidationError` and contributes to the aggregated `SchemaLoadError`
in `load_service_schemas`. -/
def validateServiceSchemaDoc (d : ServiceSchemaDoc) : Bool :=
  isServiceIdValid d.id &&
  decide ((d.fields.map (·.key)).Nodup) &&
  validate_enabled_field d.fields &&
  d.fields.all validateFieldSchema

/-- C9 example: a schema document whose `enabled` field has type string. -/
def exDocStringEnabled : ServiceSchemaDoc :=
  { id := "svc", name := "Svc", category := "core",
    fields := [{ key := "enabled", type := FieldType.string }] }

end Labctl

namespace Labctl

/-! ### Basic lemmas about the embedded dictionary and graph -/

theorem lookupSchema_eq_some_of_mem {schemas : Schemas} {s : SId}
    {sc : ServiceSchema} (hnd : (keysOf schemas).Nodup)
    (hmem : (s, sc) ∈ schemas) : lookupSchema schemas s = some sc := by
  induction schemas with
  | nil => cases hmem
  | cons p rest ih =>
      simp only [keysOf, List.map_cons, List.nodup_cons] at hnd
      rcases List.mem_cons.1 hmem with h | h
      · rw [← h]
        simp [lookupSchema, List.find?]
      · have hne : ¬ (p.1 = s) := by
          intro he
          have hk : s ∈ keysOf rest := List.mem_map.2 ⟨(s, sc), h, rfl⟩
          rw [← he] at hk
          exact hnd.1 hk
        have := ih hnd.2 h
        simpa [lookupSchema, List.find?, hne] using this

theorem graphDeps_nodup (schemas : Schemas) (s : SId) :
    (graphDeps schemas s).Nodup := by
  unfold graphDeps
  cases lookupSchema schemas s with
  | none => simp
  | some sc => simpa using sc.dependencies.nodup_dedup

theorem subgraphOf_nodup (schemas : Schemas) (services : List SId) (s : SId) :
    (subgraphOf (graphDeps schemas) services s).Nodup :=
  (graphDeps_nodup schemas s).filter _

theorem subgraphOf_sub_services {g : SId → List SId} {services : List SId}
    {s d : SId} (h : d ∈ subgraphOf g services s) : d ∈ services := by
  have := List.mem_filter.1 h
  simpa using this.2

theorem subgraphOf_sub_g {g : SId → List SId} {services : List SId}
    {s d : SId} (h : d ∈ subgraphOf g services s) : d ∈ g s :=
  (List.mem_filter.1 h).1

theorem mem_subgraphOf {g : SId → List SId} {services : List SId}
    {s d : SId} (hg : d ∈ g s) (hs : d ∈ services) :
    d ∈ subgraphOf g services s := by
  refine List.mem_filter.2 ⟨hg, by simpa using hs⟩

/-- Universe of service ids a closure run can ever mention: the (deduplicated)
selection plus every dependency edge target. -/
def closureCand (schemas : Schemas) (selected : List SId) : List SId :=
  selected.dedup ++ (schemas.map (fun p => p.2.dependencies.dedup)).flatten

theorem graphDeps_sub_cand {schemas : Schemas} {selected : List SId}
    {s d : SId} (h : d ∈ graphDeps schemas s) :
    d ∈ closureCand schemas selected := by
  unfold graphDeps at h
  rcases hl : lookupSchema schemas s with _ | sc
  · rw [hl] at h; cases h
  · rw [hl] at h
    unfold lookupSchema at hl
    rcases hf : schemas.find? (fun p => p.1 = s) with _ | p
    · rw [hf] at hl; cases hl
    · rw [hf] at hl
      have hp : p ∈ schemas := List.mem_of_find?_eq_some hf
      have : p.2 = sc := by
        simpa using hl
      subst this
      refine List.mem_append.2 (Or.inr ?_)
      exact List.mem_flatten.2 ⟨p.2.dependencies.dedup,
        List.mem_map.2 ⟨p, hp, rfl⟩, h⟩

theorem closureCand_length (schemas : Schemas) (selected : List SId) :
    (closureCand schemas selected).length + selected.length <
      selected.dedup.length + closureFuel schemas selected := by
  unfold closureCand closureFuel
  have : ((schemas.map (fun p => p.2.dependencies.dedup)).flatten).length =
      (schemas.map (fun p => p.2.dependencies.dedup.length)).sum := by
    rw [List.length_flatten]
    simp [Function.comp_def]
  simp [List.length_append, this]
  omega

/-! ### The BFS closure loop -/

theorem closureLoop_spec (g : SId → List SId) (cand : List SId)
    (hg : ∀ s d, d ∈ g s → d ∈ cand) (hgnd : ∀ s, (g s).Nodup) :
    ∀ fuel queue acc,
    (∀ x ∈ queue, x ∈ acc) →
    acc.Nodup →
    (∀ x ∈ acc, x ∈ cand) →
    (∀ x ∈ acc, x ∈ queue ∨ ∀ d ∈ g x, d ∈ acc) →
    cand.length + queue.length < acc.length + fuel →
    (∀ x ∈ acc, x ∈ closureLoop g fuel queue acc) ∧
    (closureLoop g fuel queue acc).Nodup ∧
    (∀ x ∈ closureLoop g fuel queue acc, x ∈ cand) ∧
    (∀ x ∈ closureLoop g fuel queue acc, ∀ d ∈ g x,
      d ∈ closureLoop g fuel queue acc) := by
  intro fuel
  induction fuel with
  | zero =>
      intro queue acc _ hnd hsub _ hfuel
      exfalso
      have hle : acc.length ≤ cand.length :=
        (List.Nodup.subperm hnd hsub).length_le
      omega
  | succ fuel ih =>
      intro queue acc hqa hnd hsub hinv hfuel
      match queue with
      | [] =>
          refine ⟨fun x hx => by simpa [closureLoop] using hx, ?_, ?_, ?_⟩
          · simpa [closureLoop] using hnd
          · intro x hx
            exact hsub x (by simpa [closureLoop] using hx)
          · intro x hx d hd
            simp only [closureLoop] at hx ⊢
            rcases hinv x hx with h | h
            · cases h
            · exact h d hd
      | s :: rest =>
          simp only [closureLoop]
          set fresh := (g s).filter (fun d => !acc.contains d) with hfresh
          have hfresh_new : ∀ x ∈ fresh, x ∉ acc := by
            intro x hx
            have := (List.mem_filter.1 hx).2
            simpa using this
          have hfresh_g : ∀ x ∈ fresh, x ∈ g s := fun x hx =>
            (List.mem_filter.1 hx).1
          have hfresh_nd : fresh.Nodup := (hgnd s).filter _
          have hnd' : (acc ++ fresh).Nodup := by
            refine List.Nodup.append hnd hfresh_nd ?_
            intro x hx hx'
            exact hfresh_new x hx' hx
          have hqa' : ∀ x ∈ rest ++ fresh, x ∈ acc ++ fresh := by
            intro x hx
            rcases List.mem_append.1 hx with h | h
            · exact List.mem_append.2 (Or.inl (hqa x (List.mem_cons_of_mem _ h)))
            · exact List.mem_append.2 (Or.inr h)
          have hsub' : ∀ x ∈ acc ++ fresh, x ∈ cand := by
            intro x hx
            rcases List.mem_append.1 hx with h | h
            · exact hsub x h
            · exact hg s x (hfresh_g x h)
          have hinv' : ∀ x ∈ acc ++ fresh,
              x ∈ rest ++ fresh ∨ ∀ d ∈ g x, d ∈ acc ++ fresh := by
            intro x hx
            rcases List.mem_append.1 hx with h | h
            · rcases hinv x h with h' | h'
              · rcases List.mem_cons.1 h' with h'' | h''
                · subst h''
                  refine Or.inr ?_
                  intro d hd
                  by_cases hda : d ∈ acc
                  · exact List.mem_append.2 (Or.inl hda)
                  · refine List.mem_append.2 (Or.inr ?_)
                    exact List.mem_filter.2 ⟨hd, by simpa using hda⟩
                · exact Or.inl (List.mem_append.2 (Or.inl h''))
              · exact Or.inr fun d hd => List.mem_append.2 (Or.inl (h' d hd))
            · exact Or.inl (List.mem_append.2 (Or.inr h))
          have hfuel' : cand.length + (rest ++ fresh).length <
              (acc ++ fresh).length + fuel := by
            simp only [List.length_append, List.length_cons] at hfuel ⊢
            omega
          obtain ⟨c1, c2, c3, c4⟩ := ih (rest ++ fresh) (acc ++ fresh)
            hqa' hnd' hsub' hinv' hfuel'
          exact ⟨fun x hx => c1 x (List.mem_append.2 (Or.inl hx)), c2, c3, c4⟩

end Labctl

namespace Labctl

/-! ### Counting helpers for the in-degree bookkeeping -/

theorem filter_ne_of_not_mem {n : List SId} {s : SId} (h : s ∉ n) :
    n.filter (fun d => !(d == s)) = n := by
  apply List.filter_eq_self.2
  intro a ha
  have hne : a ≠ s := fun he => h (he ▸ ha)
  simp [hne]

theorem length_filter_ne_of_mem {n : List SId} {s : SId}
    (hn : n.Nodup) (hs : s ∈ n) :
    (n.filter (fun d => !(d == s))).length + 1 = n.length := by
  induction n with
  | nil => cases hs
  | cons a t ih =>
      rcases List.nodup_cons.1 hn with ⟨hat, htnd⟩
      rcases List.mem_cons.1 hs with h | h
      · subst h
        rw [List.filter_cons]
        simp [filter_ne_of_not_mem hat]
      · have hna : ¬ (a = s) := fun he => hat (he ▸ h)
        have hpred : (!(a == s)) = true := by simp [hna]
        rw [List.filter_cons, if_pos hpred]
        simp only [List.length_cons]
        have := ih htnd h
        omega

theorem filter_append_singleton (m R : List SId) (s : SId) :
    m.filter (fun d => !(R ++ [s]).contains d) =
      (m.filter (fun d => !R.contains d)).filter (fun d => !(d == s)) := by
  rw [List.filter_filter]
  apply List.filter_congr
  intro d _
  by_cases h1 : d ∈ R <;> by_cases h2 : d = s <;>
    simp [h1, h2, beq_iff_eq]

theorem length_filter_append_singleton_mem {m R : List SId} {s : SId}
    (hm : m.Nodup) (hsR : s ∉ R) (hsm : s ∈ m) :
    (m.filter (fun d => !(R ++ [s]).contains d)).length =
      (m.filter (fun d => !R.contains d)).length - 1 := by
  rw [filter_append_singleton]
  have hnd : (m.filter (fun d => !R.contains d)).Nodup := hm.filter _
  have hsmem : s ∈ m.filter (fun d => !R.contains d) :=
    List.mem_filter.2 ⟨hsm, by simp [hsR]⟩
  have := length_filter_ne_of_mem hnd hsmem
  omega

theorem filter_append_singleton_not_mem {m R : List SId} {s : SId}
    (hsm : s ∉ m) :
    m.filter (fun d => !(R ++ [s]).contains d) =
      m.filter (fun d => !R.contains d) := by
  rw [filter_append_singleton]
  apply filter_ne_of_not_mem
  intro hmem
  exact hsm (List.mem_filter.1 hmem).1

theorem eq_singleton_of_nodup {n : List SId} {s : SId} (hn : n.Nodup)
    (hall : ∀ d ∈ n, d = s) (hmem : s ∈ n) : n = [s] := by
  match n with
  | [] => cases hmem
  | a :: t =>
      have ha : a = s := hall a (List.mem_cons_self a t)
      have ht : t = [] := by
        rcases List.nodup_cons.1 hn with ⟨hat, _⟩
        apply List.eq_nil_iff_forall_not_mem.2
        intro b hb
        have hb' : b = s := hall b (List.mem_cons_of_mem _ hb)
        exact hat (by rw [ha, ← hb']; exact hb)
      rw [ha, ht]

end Labctl

namespace Labctl

theorem eq_singleton_of_length_one_mem {n : List SId} {s : SId}
    (hlen : n.length = 1) (hs : s ∈ n) : n = [s] := by
  match n with
  | [a] =>
      have : s = a := by simpa using hs
      rw [this]
  | [] => cases hs
  | _ :: _ :: _ => simp at hlen

/-- Invariant-carrying run of Kahn's algorithm: starting from any state
satisfying the loop invariant, with enough fuel, the loop returns an
extension of `result` that is duplicate-free, contained in `services`,
topologically ordered, and such that a service of the subset is emitted
exactly when all its subset dependencies are. -/
theorem kahnLoop_spec (g : SId → List SId) (services : List SId)
    (hsnd : services.Nodup)
    (hgsub : ∀ s, (subgraphOf g services s).Nodup) :
    ∀ fuel queue result indeg,
    (∀ s ∈ queue, s ∈ services) →
    (∀ s ∈ result, s ∈ services) →
    queue.Nodup → result.Nodup →
    (∀ s ∈ queue, s ∉ result) →
    (∀ s ∈ services, indeg s =
      ((subgraphOf g services s).filter (fun d => !result.contains d)).length) →
    (∀ s ∈ services,
      ((∀ d ∈ subgraphOf g services s, d ∈ result) ↔ (s ∈ result ∨ s ∈ queue))) →
    result.Pairwise (fun a b => b ∉ subgraphOf g services a) →
    services.length < result.length + fuel →
    (∀ s ∈ result, s ∈ kahnLoop g services fuel queue result indeg) ∧
    (kahnLoop g services fuel queue result indeg).Nodup ∧
    (∀ s ∈ kahnLoop g services fuel queue result indeg, s ∈ services) ∧
    List.Pairwise (fun a b => b ∉ subgraphOf g services a)
      (kahnLoop g services fuel queue result indeg) ∧
    (∀ s ∈ services, ((∀ d ∈ subgraphOf g services s,
        d ∈ kahnLoop g services fuel queue result indeg) ↔
      s ∈ kahnLoop g services fuel queue result indeg)) := by
  intro fuel
  induction fuel with
  | zero =>
      intro queue result indeg _ hrsub _ hrnd _ _ _ _ hfuel
      exfalso
      have := (List.Nodup.subperm hrnd hrsub).length_le
      omega
  | succ fuel ih =>
      intro queue result indeg hqsub hrsub hqnd hrnd hdisj hindeg hdone htopo hfuel
      match queue with
      | [] =>
          refine ⟨fun x hx => by simpa [kahnLoop] using hx,
            by simpa [kahnLoop] using hrnd,
            fun x hx => hrsub x (by simpa [kahnLoop] using hx),
            by simpa [kahnLoop] using htopo, ?_⟩
          intro x hx
          simp only [kahnLoop]
          simpa using hdone x hx
      | s :: qs =>
          have hs_serv : s ∈ services := hqsub s (List.mem_cons_self s qs)
          have hs_not_res : s ∉ result := hdisj s (List.mem_cons_self s qs)
          have hs_done : ∀ d ∈ subgraphOf g services s, d ∈ result :=
            (hdone s hs_serv).2 (Or.inr (List.mem_cons_self s qs))
          have hzero_of_done : ∀ x ∈ services,
              (∀ d ∈ subgraphOf g services x, d ∈ result) → indeg x = 0 := by
            intro x hx hsub
            rw [hindeg x hx]
            have hnil : (subgraphOf g services x).filter
                (fun d => !result.contains d) = [] := by
              rw [List.filter_eq_nil_iff]
              intro d hd
              simp [hsub d hd]
            rw [hnil]
            rfl
          have hq_zero : ∀ x ∈ s :: qs, x ∈ services → indeg x = 0 :=
            fun x hxq hx => hzero_of_done x hx ((hdone x hx).2 (Or.inr hxq))
          have hr_zero : ∀ x ∈ result, indeg x = 0 :=
            fun x hxr => hzero_of_done x (hrsub x hxr)
              ((hdone x (hrsub x hxr)).2 (Or.inl hxr))
          have hmem_newly : ∀ x, (x ∈ services.filter
              (fun d => (subgraphOf g services d).contains s && indeg d == 1)) ↔
              (x ∈ services ∧ s ∈ subgraphOf g services x ∧ indeg x = 1) := by
            intro x
            rw [List.mem_filter]
            constructor
            · rintro ⟨h1, h2⟩
              rw [Bool.and_eq_true] at h2
              exact ⟨h1, by simpa using h2.1, by simpa using h2.2⟩
            · rintro ⟨h1, h2, h3⟩
              refine ⟨h1, ?_⟩
              rw [Bool.and_eq_true]
              exact ⟨by simpa using h2, by simpa using h3⟩
          have hstep : kahnLoop g services (fuel + 1) (s :: qs) result indeg =
              kahnLoop g services fuel
                (qs ++ services.filter
                  (fun d => (subgraphOf g services d).contains s && indeg d == 1))
                (result ++ [s])
                (fun d => if (subgraphOf g services d).contains s ∧ d ∈ services
                  then indeg d - 1 else indeg d) := rfl
          rw [hstep]
          have hqs_nodup : qs.Nodup := (List.nodup_cons.1 hqnd).2
          have hnewly_nodup : (services.filter
              (fun d => (subgraphOf g services d).contains s && indeg d == 1)).Nodup :=
            hsnd.filter _
          -- primed invariants
          have hqsub' : ∀ x ∈ qs ++ services.filter
              (fun d => (subgraphOf g services d).contains s && indeg d == 1),
              x ∈ services := by
            intro x hx
            rcases List.mem_append.1 hx with h | h
            · exact hqsub x (List.mem_cons_of_mem _ h)
            · exact ((hmem_newly x).1 h).1
          have hrsub' : ∀ x ∈ result ++ [s], x ∈ services := by
            intro x hx
            rcases List.mem_append.1 hx with h | h
            · exact hrsub x h
            · have : x = s := by simpa using h
              rw [this]; exact hs_serv
          have hqnd' : (qs ++ services.filter
              (fun d => (subgraphOf g services d).contains s && indeg d == 1)).Nodup := by
            refine List.Nodup.append hqs_nodup hnewly_nodup ?_
            intro x hxqs hxnew
            obtain ⟨hx, _, hind1⟩ := (hmem_newly x).1 hxnew
            have := hq_zero x (List.mem_cons_of_mem _ hxqs) hx
            omega
          have hrnd' : (result ++ [s]).Nodup := by
            refine List.Nodup.append hrnd (List.nodup_singleton s) ?_
            intro x hxr hxs
            have : x = s := by simpa using hxs
            rw [this] at hxr
            exact hs_not_res hxr
          have hdisj' : ∀ x ∈ qs ++ services.filter
              (fun d => (subgraphOf g services d).contains s && indeg d == 1),
              x ∉ result ++ [s] := by
            intro x hx hmem
            rcases List.mem_append.1 hmem with hr | hxs
            · rcases List.mem_append.1 hx with hq | hn
              · exact hdisj x (List.mem_cons_of_mem _ hq) hr
              · obtain ⟨hx', _, hind1⟩ := (hmem_newly x).1 hn
                have := hr_zero x hr
                omega
            · have hxs' : x = s := by simpa using hxs
              rw [hxs'] at hx
              rcases List.mem_append.1 hx with hq | hn
              · exact (List.nodup_cons.1 hqnd).1 hq
              · obtain ⟨_, _, hind1⟩ := (hmem_newly s).1 hn
                have := hq_zero s (List.mem_cons_self _ _) hs_serv
                omega
          have hindeg' : ∀ x ∈ services,
              (if (subgraphOf g services x).contains s ∧ x ∈ services
                then indeg x - 1 else indeg x) =
              ((subgraphOf g services x).filter
                (fun d => !(result ++ [s]).contains d)).length := by
            intro x hx
            by_cases hxs : s ∈ subgraphOf g services x
            · rw [if_pos ⟨by simpa using hxs, hx⟩, hindeg x hx,
                length_filter_append_singleton_mem (hgsub x) hs_not_res hxs]
            · rw [if_neg (fun hc => hxs (by simpa using hc.1)),
                filter_append_singleton_not_mem hxs, hindeg x hx]
          have hdone' : ∀ x ∈ services,
              ((∀ d ∈ subgraphOf g services x, d ∈ result ++ [s]) ↔
                (x ∈ result ++ [s] ∨ x ∈ qs ++ services.filter
                  (fun d => (subgraphOf g services d).contains s && indeg d == 1))) := by
            intro x hx
            constructor
            · intro hall
              by_cases hxall : ∀ d ∈ subgraphOf g services x, d ∈ result
              · rcases (hdone x hx).1 hxall with h | h
                · exact Or.inl (List.mem_append.2 (Or.inl h))
                · rcases List.mem_cons.1 h with h' | h'
                  · exact Or.inl (List.mem_append.2 (Or.inr (by simp [h'])))
                  · exact Or.inr (List.mem_append.2 (Or.inl h'))
              · push_neg at hxall
                obtain ⟨d0, hd0, hd0r⟩ := hxall
                have hd0s : d0 = s := by
                  rcases List.mem_append.1 (hall d0 hd0) with h | h
                  · exact absurd h hd0r
                  · simpa using h
                rw [hd0s] at hd0 hd0r
                have hF : (subgraphOf g services x).filter
                    (fun d => !result.contains d) = [s] := by
                  apply eq_singleton_of_nodup ((hgsub x).filter _)
                  · intro d hd
                    rcases List.mem_filter.1 hd with ⟨hd1, hd2⟩
                    rcases List.mem_append.1 (hall d hd1) with h | h
                    · exact absurd h (by simpa using hd2)
                    · simpa using h
                  · exact List.mem_filter.2 ⟨hd0, by simpa using hd0r⟩
                have hind1 : indeg x = 1 := by
                  rw [hindeg x hx, hF]
                  rfl
                exact Or.inr (List.mem_append.2
                  (Or.inr ((hmem_newly x).2 ⟨hx, hd0, hind1⟩)))
            · intro hor
              rcases hor with h | h
              · rcases List.mem_append.1 h with h' | h'
                · intro d hd
                  exact List.mem_append.2 (Or.inl ((hdone x hx).2 (Or.inl h') d hd))
                · have hxs : x = s := by simpa using h'
                  rw [hxs]
                  intro d hd
                  exact List.mem_append.2 (Or.inl (hs_done d hd))
              · rcases List.mem_append.1 h with h' | h'
                · intro d hd
                  exact List.mem_append.2 (Or.inl ((hdone x hx).2
                    (Or.inr (List.mem_cons_of_mem _ h')) d hd))
                · obtain ⟨_, hsx, hind1⟩ := (hmem_newly x).1 h'
                  have hFlen : ((subgraphOf g services x).filter
                      (fun d => !result.contains d)).length = 1 := by
                    rw [← hindeg x hx]
                    exact hind1
                  have hFs : s ∈ (subgraphOf g services x).filter
                      (fun d => !result.contains d) :=
                    List.mem_filter.2 ⟨hsx, by simpa using hs_not_res⟩
                  have hF := eq_singleton_of_length_one_mem hFlen hFs
                  intro d hd
                  by_cases hdr : d ∈ result
                  · exact List.mem_append.2 (Or.inl hdr)
                  · have hds : d ∈ ([s] : List SId) := by
                      rw [← hF]
                      exact List.mem_filter.2 ⟨hd, by simpa using hdr⟩
                    have : d = s := by simpa using hds
                    rw [this]
                    exact List.mem_append.2 (Or.inr (by simp))
          have htopo' : (result ++ [s]).Pairwise
              (fun a b => b ∉ subgraphOf g services a) := by
            rw [List.pairwise_append]
            refine ⟨htopo, List.pairwise_singleton _ _, ?_⟩
            intro a ha b hb
            have hbs : b = s := by simpa using hb
            rw [hbs]
            intro hmem
            have hall : ∀ d ∈ subgraphOf g services a, d ∈ result :=
              (hdone a (hrsub a ha)).2 (Or.inl ha)
            exact hs_not_res (hall s hmem)
          have hfuel' : services.length < (result ++ [s]).length + fuel := by
            simp only [List.length_append, List.length_singleton]
            omega
          obtain ⟨c1, c2, c3, c4, c5⟩ := ih _ _ _ hqsub' hrsub' hqnd' hrnd'
            hdisj' hindeg' hdone' htopo' hfuel'
          exact ⟨fun x hx => c1 x (List.mem_append.2 (Or.inl hx)), c2, c3, c4, c5⟩

end Labctl

namespace Labctl

/-! ### Cycles -/

/-- The iterate list `[F y, F (F y), …, F^[k] y]`. -/
def iterList (F : SId → SId) : Nat → SId → List SId
  | 0, _ => []
  | k + 1, y => F y :: iterList F k (F y)

/-- A nonempty cycle through `x` lying inside `set`:
`x → l₀ → l₁ → ⋯ → x` along the edge relation "`b` is a dependency of `a`"
(`b ∈ g a`).  With all vertices constrained to `set`, this is exactly a
cycle of the subgraph induced on `set`. -/
def IsCycleIn (g : SId → List SId) (set : List SId) (x : SId) (l : List SId) :
    Prop :=
  x ∈ set ∧ (∀ y ∈ l, y ∈ set) ∧ l ≠ [] ∧
  List.Chain (fun a b => b ∈ g a) x l ∧ l.getLast? = some x

/-- The subgraph induced on `set` has a (nonempty) cycle. -/
def HasCycleIn (g : SId → List SId) (set : List SId) : Prop :=
  ∃ x l, IsCycleIn g set x l

theorem iterList_length (F : SId → SId) : ∀ k y, (iterList F k y).length = k := by
  intro k
  induction k with
  | zero => intro y; rfl
  | succ k ih =>
      intro y
      simp only [iterList, List.length_cons, ih]

theorem iterList_getLast? (F : SId → SId) :
    ∀ k y, (iterList F (k + 1) y).getLast? = some (F^[k + 1] y) := by
  intro k
  induction k with
  | zero =>
      intro y
      simp [iterList]
  | succ k ih =>
      intro y
      have hshape : iterList F (k + 2) y =
          F y :: F (F y) :: iterList F k (F (F y)) := rfl
      rw [hshape, List.getLast?_cons_cons]
      have := ih (F y)
      rw [show (F (F y) :: iterList F k (F (F y))) = iterList F (k + 1) (F y) from rfl,
        this, Function.iterate_succ_apply, Function.iterate_succ_apply,
        Function.iterate_succ_apply]

theorem iterList_mem (F : SId → SId) (R : List SId)
    (hF : ∀ z ∈ R, F z ∈ R) :
    ∀ k y, y ∈ R → ∀ z ∈ iterList F k y, z ∈ R := by
  intro k
  induction k with
  | zero => intro y _ z hz; cases hz
  | succ k ih =>
      intro y hy z hz
      rcases List.mem_cons.1 hz with h | h
      · rw [h]; exact hF y hy
      · exact ih (F y) (hF y hy) z h

theorem iterList_chain (g : SId → List SId) (R : List SId) (F : SId → SId)
    (hF : ∀ z ∈ R, F z ∈ g z ∧ F z ∈ R) :
    ∀ k y, y ∈ R → List.Chain (fun a b => b ∈ g a) y (iterList F k y) := by
  intro k
  induction k with
  | zero => intro y _; exact List.Chain.nil
  | succ k ih =>
      intro y hy
      exact List.Chain.cons (hF y hy).1 (ih (F y) (hF y hy).2)

/-- In a finite vertex set in which every vertex has an outgoing edge that
stays in the set, there is a cycle: iterate a successor choice and apply
the pigeonhole principle. -/
theorem cycle_of_out_edges (g : SId → List SId) (R : List SId)
    (hne : R ≠ []) (hsucc : ∀ x ∈ R, ∃ d, d ∈ g x ∧ d ∈ R) :
    HasCycleIn g R := by
  classical
  set F : SId → SId :=
    fun y => if h : ∃ d, d ∈ g y ∧ d ∈ R then h.choose else y with hFdef
  have hF : ∀ z ∈ R, F z ∈ g z ∧ F z ∈ R := by
    intro z hz
    have h : ∃ d, d ∈ g z ∧ d ∈ R := hsucc z hz
    simp only [hFdef, dif_pos h]
    exact h.choose_spec
  obtain ⟨x0, hx0⟩ := List.exists_mem_of_ne_nil R hne
  have hseq : ∀ n, F^[n] x0 ∈ R := by
    intro n
    induction n with
    | zero => simpa using hx0
    | succ n ihn =>
        rw [Function.iterate_succ_apply']
        exact (hF _ ihn).2
  have key : ∀ a b : Nat, a < b → F^[a] x0 = F^[b] x0 → HasCycleIn g R := by
    intro a b hab hEq
    obtain ⟨k, hk⟩ : ∃ k, b - a = k + 1 := ⟨b - a - 1, by omega⟩
    refine ⟨F^[a] x0, iterList F (k + 1) (F^[a] x0), hseq a, ?_, ?_, ?_, ?_⟩
    · exact iterList_mem F R (fun z hz => (hF z hz).2) (k + 1) _ (hseq a)
    · intro hnil
      have := iterList_length F (k + 1) (F^[a] x0)
      rw [hnil] at this
      simp at this
    · exact iterList_chain g R F hF (k + 1) _ (hseq a)
    · rw [iterList_getLast? F k (F^[a] x0), ← Function.iterate_add_apply]
      have hba : k + 1 + a = b := by omega
      rw [hba, ← hEq]
  have hcard : (R.toFinset).card < Fintype.card (Fin (R.length + 1)) := by
    have := R.toFinset_card_le
    simp only [Fintype.card_fin]
    omega
  obtain ⟨i, _, j, _, hij, heq⟩ :=
    Finset.exists_ne_map_eq_of_card_lt_of_maps_to
      (s := (Finset.univ : Finset (Fin (R.length + 1)))) (t := R.toFinset)
      (by simpa using hcard)
      (fun i _ => List.mem_toFinset.2 (hseq i.1))
  have hijv : i.1 ≠ j.1 := fun h => hij (Fin.val_injective h)
  rcases Nat.lt_or_ge i.1 j.1 with h | h
  · exact key i.1 j.1 h heq
  · exact key j.1 i.1 (by omega) heq.symm

end Labctl

namespace Labctl

/-- `topologicalSort` unfolded through `kahnResult`. -/
theorem topologicalSort_def (g : SId → List SId) (services : List SId) :
    topologicalSort g services =
      if (kahnResult g services).length = services.length then
        .ok (kahnResult g services)
      else
        match detectCyclesInSubset (subgraphOf g services)
            (services.filter (fun s => !(kahnResult g services).contains s)) with
        | .error cycle => .error (.circular cycle)
        | .ok _ => .error (.other ("Unable to resolve dependencies for: " ++
            joinSep ", "
              (services.filter (fun s => !(kahnResult g services).contains s)))) :=
  rfl

/-- If on the current path every visited service is an ancestor, and every
service of `set` has an outgoing edge inside `set`, the subset DFS raises a
nonempty cycle. -/
theorem dfsVisit_raises (g : SId → List SId) (set : List SId)
    (hout : ∀ x ∈ set, ∃ d, d ∈ g x ∧ d ∈ set) :
    ∀ fuel v path visited,
    v ∈ set →
    (∀ u ∈ visited, u ∈ path) →
    path.Nodup →
    (∀ u ∈ path, u ∈ set) →
    2 * (set.length - path.length) < fuel →
    ∃ c, dfsVisit g set fuel v path visited = .error c ∧ c ≠ [] := by
  intro fuel
  induction fuel using Nat.strong_induction_on with
  | _ fuel ih =>
    intro v path visited hv hvisp hpnd hps hfuel
    match fuel, hfuel with
    | f + 1, hfuel =>
      by_cases hvpath : v ∈ path
      · refine ⟨path.drop (List.indexOf v path), ?_, ?_⟩
        · simp only [dfsVisit, if_pos hvpath]
        · intro hnil
          rw [List.drop_eq_nil_iff] at hnil
          have := List.indexOf_lt_length.2 hvpath
          omega
      · have hvvis : v ∉ visited := fun h => hvpath (hvisp v h)
        have hplen : path.length + 1 ≤ set.length := by
          have hnd : (path ++ [v]).Nodup := by
            refine List.Nodup.append hpnd (List.nodup_singleton v) ?_
            intro x hx hxs
            have : x = v := by simpa using hxs
            rw [this] at hx
            exact hvpath hx
          have hsub : ∀ u ∈ path ++ [v], u ∈ set := by
            intro u hu
            rcases List.mem_append.1 hu with h | h
            · exact hps u h
            · have : u = v := by simpa using h
              rw [this]; exact hv
          have := (List.Nodup.subperm hnd hsub).length_le
          simpa using this
        obtain ⟨f', rfl⟩ : ∃ f', f = f' + 1 := ⟨f - 1, by omega⟩
        obtain ⟨d, hd, hdset⟩ := hout v hv
        have hdmem : d ∈ (g v).filter (fun x => set.contains x) :=
          List.mem_filter.2 ⟨hd, by simpa using hdset⟩
        have hstep : dfsVisit g set (f' + 1 + 1) v path visited =
            dfsChildren g set (f' + 1) ((g v).filter (fun x => set.contains x))
              (path ++ [v]) (visited ++ [v]) := by
          simp only [dfsVisit, if_neg hvpath, if_neg hvvis]
        rw [hstep]
        match hds : (g v).filter (fun x => set.contains x), hdmem with
        | d0 :: rest, _ =>
          have hd0 : d0 ∈ (g v).filter (fun x => set.contains x) := by
            rw [hds]; exact List.mem_cons_self d0 rest
          have hd0set : d0 ∈ set := by
            have := (List.mem_filter.1 hd0).2
            simpa using this
          have hvp' : ∀ u ∈ visited ++ [v], u ∈ path ++ [v] := by
            intro u hu
            rcases List.mem_append.1 hu with h | h
            · exact List.mem_append.2 (Or.inl (hvisp u h))
            · exact List.mem_append.2 (Or.inr h)
          have hpnd' : (path ++ [v]).Nodup := by
            refine List.Nodup.append hpnd (List.nodup_singleton v) ?_
            intro x hx hxs
            have : x = v := by simpa using hxs
            rw [this] at hx
            exact hvpath hx
          have hps' : ∀ u ∈ path ++ [v], u ∈ set := by
            intro u hu
            rcases List.mem_append.1 hu with h | h
            · exact hps u h
            · have : u = v := by simpa using h
              rw [this]; exact hv
          have hfuel' : 2 * (set.length - (path ++ [v]).length) < f' := by
            simp only [List.length_append, List.length_singleton]
            omega
          obtain ⟨c, hc, hcne⟩ := ih f' (by omega) d0 (path ++ [v])
            (visited ++ [v]) hd0set hvp' hpnd' hps' hfuel'
          refine ⟨c, ?_, hcne⟩
          simp only [dfsChildren, hc]

/-- The full Kahn run of `_topological_sort` satisfies the final loop
invariant: duplicate-free, inside the subset, topologically ordered, and a
service is emitted iff all its subset dependencies are. -/
theorem kahnResult_spec (g : SId → List SId) (services : List SId)
    (hsnd : services.Nodup)
    (hgsub : ∀ s, (subgraphOf g services s).Nodup) :
    (kahnResult g services).Nodup ∧
    (∀ s ∈ kahnResult g services, s ∈ services) ∧
    List.Pairwise (fun a b => b ∉ subgraphOf g services a)
      (kahnResult g services) ∧
    (∀ s ∈ services, ((∀ d ∈ subgraphOf g services s,
        d ∈ kahnResult g services) ↔ s ∈ kahnResult g services)) := by
  have hfilter_id : ∀ s, (subgraphOf g services s).filter
      (fun d => !([] : List SId).contains d) = subgraphOf g services s := by
    intro s
    apply List.filter_eq_self.2
    intro a _
    simp
  obtain ⟨_, c2, c3, c4, c5⟩ := kahnLoop_spec g services hsnd hgsub
    (services.length + 1)
    (services.filter (fun s => (subgraphOf g services s).length == 0)) []
    (fun s => (subgraphOf g services s).length)
    (fun x hx => (List.mem_filter.1 hx).1)
    (fun x hx => absurd hx (List.not_mem_nil x))
    (hsnd.filter _) List.nodup_nil
    (fun x _ => List.not_mem_nil x)
    (fun s _ => by rw [hfilter_id s])
    (by
      intro s hs
      constructor
      · intro hall
        refine Or.inr (List.mem_filter.2 ⟨hs, ?_⟩)
        have : subgraphOf g services s = [] := by
          apply List.eq_nil_iff_forall_not_mem.2
          intro d hd
          exact absurd (hall d hd) (List.not_mem_nil d)
        simp [this]
      · intro h d hd
        rcases h with h | h
        · exact absurd h (List.not_mem_nil s)
        · have hlen := (List.mem_filter.1 h).2
          have : (subgraphOf g services s).length = 0 := by simpa using hlen
          rw [List.length_eq_zero] at this
          rw [this] at hd
          cases hd)
    List.Pairwise.nil
    (by omega)
  exact ⟨c2, c3, c4, c5⟩

end Labctl

namespace Labctl

/-- Every service of the subset left unordered by the Kahn run has a
dependency that is also left unordered. -/
theorem residual_out_edges (g : SId → List SId) (services : List SId)
    (hsnd : services.Nodup)
    (hgsub : ∀ s, (subgraphOf g services s).Nodup) :
    ∀ y ∈ services.filter (fun s => !(kahnResult g services).contains s),
      ∃ d, d ∈ subgraphOf g services y ∧
        d ∈ services.filter (fun s => !(kahnResult g services).contains s) := by
  obtain ⟨hnd, hsub, htopo, hdone⟩ := kahnResult_spec g services hsnd hgsub
  intro y hy
  obtain ⟨hys, hyr⟩ := List.mem_filter.1 hy
  have hyr' : y ∉ kahnResult g services := by simpa using hyr
  have hnall : ¬ ∀ d ∈ subgraphOf g services y, d ∈ kahnResult g services :=
    fun hall => hyr' ((hdone y hys).1 hall)
  push_neg at hnall
  obtain ⟨d, hd, hdr⟩ := hnall
  exact ⟨d, hd, List.mem_filter.2
    ⟨subgraphOf_sub_services hd, by simpa using hdr⟩⟩

/-- When the induced subgraph is acyclic, `_topological_sort` succeeds and
returns a permutation of the subset in topological order. -/
theorem topologicalSort_ok_of_acyclic (g : SId → List SId)
    (services : List SId) (hsnd : services.Nodup)
    (hgsub : ∀ s, (subgraphOf g services s).Nodup)
    (hacyc : ¬ HasCycleIn g services) :
    topologicalSort g services = .ok (kahnResult g services) ∧
    (∀ x, x ∈ kahnResult g services ↔ x ∈ services) ∧
    List.Pairwise (fun a b => b ∉ subgraphOf g services a)
      (kahnResult g services) := by
  obtain ⟨hnd, hsub, htopo, hdone⟩ := kahnResult_spec g services hsnd hgsub
  have hcover : ∀ x ∈ services, x ∈ kahnResult g services := by
    by_contra hc
    push_neg at hc
    obtain ⟨x, hx, hxr⟩ := hc
    have hxR : x ∈ services.filter
        (fun s => !(kahnResult g services).contains s) :=
      List.mem_filter.2 ⟨hx, by simpa using hxr⟩
    have hRne : services.filter
        (fun s => !(kahnResult g services).contains s) ≠ [] := by
      intro h
      rw [h] at hxR
      cases hxR
    have hcyc : HasCycleIn (subgraphOf g services)
        (services.filter (fun s => !(kahnResult g services).contains s)) :=
      cycle_of_out_edges _ _ hRne (residual_out_edges g services hsnd hgsub)
    obtain ⟨w, l, hw, hl, hlne, hchain, hlast⟩ := hcyc
    apply hacyc
    refine ⟨w, l, (List.mem_filter.1 hw).1, ?_, hlne, ?_, hlast⟩
    · intro z hz
      exact (List.mem_filter.1 (hl z hz)).1
    · exact List.Chain.imp (fun a b hb => subgraphOf_sub_g hb) hchain
  have hlen : (kahnResult g services).length = services.length := by
    have h1 := (List.Nodup.subperm hnd hsub).length_le
    have h2 := (List.Nodup.subperm hsnd hcover).length_le
    omega
  refine ⟨?_, ?_, htopo⟩
  · rw [topologicalSort_def, if_pos hlen]
  · intro x
    exact ⟨fun h => hsub x h, fun h => hcover x h⟩

/-- When `_topological_sort` fails, the failure is always
`CircularDependencyError` with a nonempty cycle — the fallback bare
`DependencyError` branch is unreachable. -/
theorem topologicalSort_error_circular (g : SId → List SId)
    (services : List SId) (hsnd : services.Nodup)
    (hgsub : ∀ s, (subgraphOf g services s).Nodup)
    {e : DepErr} (he : topologicalSort g services = .error e) :
    ∃ c, e = .circular c ∧ c ≠ [] := by
  rw [topologicalSort_def] at he
  by_cases hlen : (kahnResult g services).length = services.length
  · rw [if_pos hlen] at he
    cases he
  · rw [if_neg hlen] at he
    have hRne : services.filter
        (fun s => !(kahnResult g services).contains s) ≠ [] := by
      intro hR
      apply hlen
      obtain ⟨hnd, hsub, _, _⟩ := kahnResult_spec g services hsnd hgsub
      have hcover : ∀ x ∈ services, x ∈ kahnResult g services := by
        intro x hx
        by_contra hxr
        have hmem : x ∈ services.filter
            (fun s => !(kahnResult g services).contains s) :=
          List.mem_filter.2 ⟨hx, by simpa using hxr⟩
        rw [hR] at hmem
        cases hmem
      have h1 := (List.Nodup.subperm hnd hsub).length_le
      have h2 := (List.Nodup.subperm hsnd hcover).length_le
      omega
    obtain ⟨y, ys, hR⟩ := List.exists_cons_of_ne_nil hRne
    have hy : y ∈ services.filter
        (fun s => !(kahnResult g services).contains s) := by
      rw [hR]
      exact List.mem_cons_self y ys
    obtain ⟨c, hc, hcne⟩ := dfsVisit_raises (subgraphOf g services)
      (services.filter (fun s => !(kahnResult g services).contains s))
      (residual_out_edges g services hsnd hgsub)
      (dfsFuel (services.filter (fun s => !(kahnResult g services).contains s)))
      y [] []
      hy (fun u hu => absurd hu (List.not_mem_nil u)) List.nodup_nil
      (fun u hu => absurd hu (List.not_mem_nil u))
      (by simp only [dfsFuel]; omega)
    have hdet : detectCyclesInSubset (subgraphOf g services)
        (services.filter (fun s => !(kahnResult g services).contains s)) =
        .error c := by
      unfold detectCyclesInSubset
      conv =>
        lhs
        rw [hR]
      simp only [dfsTop]
      rw [if_neg (List.not_mem_nil y), ← hR, hc]
    rw [hdet] at he
    have : DepErr.circular c = e := by
      injection he
    exact ⟨c, this.symm, hcne⟩

end Labctl

namespace Labctl

/-! ### String-mention helpers -/

theorem mem_insertSorted {x y : String} {l : List String} :
    y ∈ insertSorted x l ↔ (y = x ∨ y ∈ l) := by
  induction l with
  | nil => simp [insertSorted]
  | cons a t ih =>
      by_cases h : x ≤ a
      · simp [insertSorted, h]
      · simp [insertSorted, h, ih]
        tauto

theorem mem_sortStrings {y : String} {l : List String} :
    y ∈ sortStrings l ↔ y ∈ l := by
  induction l with
  | nil => simp [sortStrings]
  | cons a t ih =>
      simp [sortStrings, mem_insertSorted, ih]

theorem joinSep_mentions (sep : String) {y : String} {l : List String}
    (hy : y ∈ l) : strContains (joinSep sep l) y := by
  induction l with
  | nil => cases hy
  | cons x xs ih =>
      match xs with
      | [] =>
          have hxy : y = x := by simpa using hy
          exact ⟨[], [], by simp [joinSep, hxy]⟩
      | x' :: xs' =>
          rcases List.mem_cons.1 hy with h | h
          · refine ⟨[], (sep ++ joinSep sep (x' :: xs')).data, ?_⟩
            simp [joinSep, h]
          · obtain ⟨pre, post, hpp⟩ := ih h
            refine ⟨(x ++ sep).data ++ pre, post, ?_⟩
            show (x ++ sep ++ joinSep sep (x' :: xs')).data = _
            simp only [String.data_append, hpp, List.append_assoc]

theorem strContains_append_left (a : String) {b y : String}
    (h : strContains b y) : strContains (a ++ b) y := by
  obtain ⟨pre, post, hpp⟩ := h
  exact ⟨a.data ++ pre, post, by simp [String.data_append, hpp]⟩

/-! ### The dependency closure -/

theorem closureList_spec (schemas : Schemas) (selected : List SId) :
    (∀ x ∈ selected, x ∈ closureList schemas selected) ∧
    (closureList schemas selected).Nodup ∧
    (∀ x ∈ closureList schemas selected, x ∈ closureCand schemas selected) ∧
    (∀ x ∈ closureList schemas selected, ∀ d ∈ graphDeps schemas x,
      d ∈ closureList schemas selected) := by
  obtain ⟨c1, c2, c3, c4⟩ := closureLoop_spec (graphDeps schemas)
    (closureCand schemas selected)
    (fun s d hd => graphDeps_sub_cand hd) (graphDeps_nodup schemas)
    (closureFuel schemas selected) selected selected.dedup
    (fun x hx => List.mem_dedup.2 hx)
    selected.nodup_dedup
    (fun x hx => List.mem_append.2 (Or.inl hx))
    (fun x hx => Or.inl (List.mem_dedup.1 hx))
    (closureCand_length schemas selected)
  exact ⟨fun x hx => c1 x (List.mem_dedup.2 hx), c2, c3, c4⟩

/-- `resolve_dependencies` (with the default `include_dependents=False`)
unfolded. -/
theorem resolve_dependencies_def (schemas : Schemas) (selected : List SId) :
    resolve_dependencies schemas selected =
      (if selected.filter (fun s => !(keysOf schemas).contains s) ≠ [] then
        .error (.missing "selection"
          (selected.filter (fun s => !(keysOf schemas).contains s)))
      else if (closureList schemas selected).filter
          (fun s => !(keysOf schemas).contains s) ≠ [] then
        .error (.missing "resolution"
          ((closureList schemas selected).filter
            (fun s => !(keysOf schemas).contains s)))
      else topologicalSort (graphDeps schemas) (closureList schemas selected)) :=
  rfl

/-- A set whose every member has an empty dependency set carries no cycle. -/
theorem noCycle_of_no_edges (g : SId → List SId) (set : List SId)
    (h : ∀ x ∈ set, g x = []) : ¬ HasCycleIn g set := by
  rintro ⟨x, l, hx, _, hlne, hchain, _⟩
  match l, hlne, hchain with
  | b :: l', _, hchain =>
      have hb : b ∈ g x := (List.chain_cons.1 hchain).1
      rw [h x hx] at hb
      cases hb

/-- C1: for every schema set whose induced subgraph over the resolved
closure has no cycle (and whose selection and closure stay inside the
store), `resolve_dependencies(selection)` succeeds and returns a valid
topological order of the closed set: every service appears after all of
its dependencies that are in the list. -/
theorem resolve_acyclic_succeeds (schemas : Schemas) (selected : List SId)
    (hsel : ∀ s ∈ selected, s ∈ keysOf schemas)
    (hclosed : ∀ s ∈ closureList schemas selected, s ∈ keysOf schemas)
    (hacyc : ¬ HasCycleIn (graphDeps schemas) (closureList schemas selected)) :
    ∃ r, resolve_dependencies schemas selected = .ok r ∧
      List.Pairwise (fun a b => b ∉ graphDeps schemas a) r ∧
      (∀ x, x ∈ r ↔ x ∈ closureList schemas selected) := by
  obtain ⟨hok, hperm, htopo⟩ := topologicalSort_ok_of_acyclic
    (graphDeps schemas) (closureList schemas selected)
    (closureList_spec schemas selected).2.1
    (subgraphOf_nodup schemas _) hacyc
  have hinv : selected.filter (fun s => !(keysOf schemas).contains s) = [] := by
    rw [List.filter_eq_nil_iff]
    intro a ha
    simp [hsel a ha]
  have hmiss : (closureList schemas selected).filter
      (fun s => !(keysOf schemas).contains s) = [] := by
    rw [List.filter_eq_nil_iff]
    intro a ha
    simp [hclosed a ha]
  refine ⟨kahnResult (graphDeps schemas) (closureList schemas selected),
    ?_, ?_, hperm⟩
  · rw [resolve_dependencies_def, if_neg (fun hcon => hcon hinv),
      if_neg (fun hcon => hcon hmiss)]
    exact hok
  · refine List.Pairwise.imp_of_mem ?_ htopo
    intro a b _ hb hnb hgb
    exact hnb (mem_subgraphOf hgb ((hperm b).1 hb))

/-- Witness for C1: a one-service store with no dependencies. -/
theorem resolve_acyclic_succeeds_witness :
    ∃ r, resolve_dependencies exSingle ["X"] = .ok r ∧
      List.Pairwise (fun a b => b ∉ graphDeps exSingle a) r ∧
      (∀ x, x ∈ r ↔ x ∈ closureList exSingle ["X"]) :=
  resolve_acyclic_succeeds exSingle ["X"] (by decide) (by decide)
    (noCycle_of_no_edges _ _ (by decide))

end Labctl

namespace Labctl

/-- C2: whenever `resolve_dependencies(selection)` returns without raising,
the returned list (as a set) contains the selection and is closed under the
declared dependency relation. -/
theorem resolve_result_superset_closed (schemas : Schemas)
    (selected : List SId) (r : List SId)
    (h : resolve_dependencies schemas selected = .ok r) :
    (∀ s ∈ selected, s ∈ r) ∧
    (∀ s ∈ r, ∀ sc, lookupSchema schemas s = some sc →
      ∀ d ∈ sc.dependencies, d ∈ r) := by
  rw [resolve_dependencies_def] at h
  by_cases h1 : selected.filter (fun s => !(keysOf schemas).contains s) ≠ []
  · rw [if_pos h1] at h
    cases h
  · rw [if_neg h1] at h
    by_cases h2 : (closureList schemas selected).filter
        (fun s => !(keysOf schemas).contains s) ≠ []
    · rw [if_pos h2] at h
      cases h
    · rw [if_neg h2] at h
      obtain ⟨hcl_sel, hcl_nd, _, hcl_closed⟩ := closureList_spec schemas selected
      by_cases hlen : (kahnResult (graphDeps schemas)
          (closureList schemas selected)).length =
          (closureList schemas selected).length
      · rw [topologicalSort_def, if_pos hlen] at h
        have hr : r = kahnResult (graphDeps schemas)
            (closureList schemas selected) := by
          injection h with h'
          exact h'.symm
        obtain ⟨hknd, hksub, _, _⟩ := kahnResult_spec (graphDeps schemas)
          (closureList schemas selected) hcl_nd (subgraphOf_nodup schemas _)
        have hsp := List.Nodup.subperm hknd hksub
        have hpm := List.Subperm.perm_of_length_le hsp (by omega)
        have hmem : ∀ x, x ∈ r ↔ x ∈ closureList schemas selected := by
          intro x
          rw [hr]
          exact hpm.mem_iff
        constructor
        · intro s hs
          exact (hmem s).2 (hcl_sel s hs)
        · intro s hs sc hsc d hd
          have hdg : d ∈ graphDeps schemas s := by
            unfold graphDeps
            rw [hsc]
            exact List.mem_dedup.2 hd
          exact (hmem d).2 (hcl_closed s ((hmem s).1 hs) d hdg)
      · rw [topologicalSort_def, if_neg hlen] at h
        cases hdet : detectCyclesInSubset
            (subgraphOf (graphDeps schemas) (closureList schemas selected))
            ((closureList schemas selected).filter
              (fun s => !(kahnResult (graphDeps schemas)
                (closureList schemas selected)).contains s)) with
        | error c =>
            rw [hdet] at h
            cases h
        | ok u =>
            rw [hdet] at h
            cases h

/-- Witness for C2: resolving the one-service store succeeds with `["X"]`. -/
theorem resolve_result_superset_closed_witness :
    (∀ s ∈ (["X"] : List SId), s ∈ (["X"] : List SId)) ∧
    (∀ s ∈ (["X"] : List SId), ∀ sc, lookupSchema exSingle s = some sc →
      ∀ d ∈ sc.dependencies, d ∈ (["X"] : List SId)) :=
  resolve_result_superset_closed exSingle ["X"] ["X"] rfl

/-- C3: resolving `["A"]` in the store A → B → C → A raises
`CircularDependencyError` carrying exactly the 3-element cycle
`["A", "B", "C"]`; and in general, under a valid selection with no missing
dependencies, any error `resolve_dependencies` raises is a
`CircularDependencyError` naming a nonempty cycle (the bare
`DependencyError` fallback of `_topological_sort` is unreachable). -/
theorem resolve_cycle_errors :
    (resolve_dependencies exABC ["A"] = .error (.circular ["A", "B", "C"]) ∧
      (["A", "B", "C"] : List SId).length = 3) ∧
    (∀ (schemas : Schemas) (selected : List SId),
      (∀ s ∈ selected, s ∈ keysOf schemas) →
      (∀ s ∈ closureList schemas selected, s ∈ keysOf schemas) →
      ∀ e, resolve_dependencies schemas selected = .error e →
        ∃ c, e = .circular c ∧ c ≠ []) := by
  refine ⟨⟨rfl, rfl⟩, ?_⟩
  intro schemas selected hsel hclosed e he
  have hinv : selected.filter (fun s => !(keysOf schemas).contains s) = [] := by
    rw [List.filter_eq_nil_iff]
    intro a ha
    simp [hsel a ha]
  have hmiss : (closureList schemas selected).filter
      (fun s => !(keysOf schemas).contains s) = [] := by
    rw [List.filter_eq_nil_iff]
    intro a ha
    simp [hclosed a ha]
  rw [resolve_dependencies_def, if_neg (fun hcon => hcon hinv),
    if_neg (fun hcon => hcon hmiss)] at he
  exact topologicalSort_error_circular (graphDeps schemas)
    (closureList schemas selected) (closureList_spec schemas selected).2.1
    (subgraphOf_nodup schemas _) he

/-- Witness for C3's general part, instantiated on the A → B → C → A store. -/
theorem resolve_cycle_errors_witness :
    ∃ c, DepErr.circular ["A", "B", "C"] = .circular c ∧ c ≠ [] :=
  resolve_cycle_errors.2 exABC ["A"] (by decide) (by decide)
    (.circular ["A", "B", "C"]) rfl

end Labctl

namespace Labctl

/-- C4: if service X (present in the store) declares a dependency on an id
Y that is absent from the store, `validate_dependencies` returns a
non-empty error list with a message mentioning Y, and
`resolve_dependencies(["X"])` raises `MissingDependencyError`. -/
theorem missing_dependency_reported (schemas : Schemas) (X Y : SId)
    (sc : ServiceSchema) (hnd : (keysOf schemas).Nodup)
    (hmem : (X, sc) ∈ schemas) (hdep : Y ∈ sc.dependencies)
    (hYmissing : Y ∉ keysOf schemas) :
    (validate_dependencies schemas ≠ [] ∧
      ∃ msg ∈ validate_dependencies schemas, strContains msg Y) ∧
    (∃ m, resolve_dependencies schemas [X] =
        .error (.missing "resolution" m) ∧ Y ∈ m) := by
  have hYM0 : Y ∈ (sc.dependencies.dedup).filter
      (fun d => !(keysOf schemas).contains d) :=
    List.mem_filter.2 ⟨List.mem_dedup.2 hdep, by simpa using hYmissing⟩
  have hM0ne : (sc.dependencies.dedup).filter
      (fun d => !(keysOf schemas).contains d) ≠ [] := by
    intro hcon
    rw [hcon] at hYM0
    cases hYM0
  have hmsg : ("Service \x27" ++ X ++ "\x27 has missing dependencies: " ++
      joinSep ", " (sortStrings ((sc.dependencies.dedup).filter
        (fun d => !(keysOf schemas).contains d)))) ∈
      missingDepErrors schemas := by
    apply List.mem_filterMap.2
    refine ⟨(X, sc), hmem, ?_⟩
    show (if (sc.dependencies.dedup).filter
        (fun d => !(keysOf schemas).contains d) = [] then none
      else some ("Service \x27" ++ X ++ "\x27 has missing dependencies: " ++
        joinSep ", " (sortStrings ((sc.dependencies.dedup).filter
          (fun d => !(keysOf schemas).contains d))))) = _
    rw [if_neg hM0ne]
  have hmsg_val : ("Service \x27" ++ X ++ "\x27 has missing dependencies: " ++
      joinSep ", " (sortStrings ((sc.dependencies.dedup).filter
        (fun d => !(keysOf schemas).contains d)))) ∈
      validate_dependencies schemas := by
    unfold validate_dependencies
    exact List.mem_append.2 (Or.inl hmsg)
  have hmentions : strContains ("Service \x27" ++ X ++
      "\x27 has missing dependencies: " ++
      joinSep ", " (sortStrings ((sc.dependencies.dedup).filter
        (fun d => !(keysOf schemas).contains d)))) Y :=
    strContains_append_left _ (joinSep_mentions ", " (mem_sortStrings.2 hYM0))
  refine ⟨⟨List.ne_nil_of_mem hmsg_val, _, hmsg_val, hmentions⟩, ?_⟩
  have hXkeys : X ∈ keysOf schemas := List.mem_map.2 ⟨(X, sc), hmem, rfl⟩
  have hinv : List.filter (fun s => !(keysOf schemas).contains s) [X] = [] := by
    rw [List.filter_eq_nil_iff]
    intro a ha
    have : a = X := by simpa using ha
    simp [this, hXkeys]
  have hXcl : X ∈ closureList schemas [X] :=
    (closureList_spec schemas [X]).1 X (List.mem_singleton_self X)
  have hYg : Y ∈ graphDeps schemas X := by
    unfold graphDeps
    rw [lookupSchema_eq_some_of_mem hnd hmem]
    exact List.mem_dedup.2 hdep
  have hYcl : Y ∈ closureList schemas [X] :=
    (closureList_spec schemas [X]).2.2.2 X hXcl Y hYg
  have hYM : Y ∈ (closureList schemas [X]).filter
      (fun s => !(keysOf schemas).contains s) :=
    List.mem_filter.2 ⟨hYcl, by simpa using hYmissing⟩
  have hMne : (closureList schemas [X]).filter
      (fun s => !(keysOf schemas).contains s) ≠ [] := by
    intro hcon
    rw [hcon] at hYM
    cases hYM
  refine ⟨(closureList schemas [X]).filter
    (fun s => !(keysOf schemas).contains s), ?_, hYM⟩
  rw [resolve_dependencies_def, if_neg (fun hcon => hcon hinv), if_pos hMne]

/-- Witness for C4 on the store where X depends on the nonexistent Y. -/
theorem missing_dependency_reported_witness :
    (validate_dependencies exMissingY ≠ [] ∧
      ∃ msg ∈ validate_dependencies exMissingY, strContains msg "Y") ∧
    (∃ m, resolve_dependencies exMissingY ["X"] =
        .error (.missing "resolution" m) ∧ "Y" ∈ m) :=
  missing_dependency_reported exMissingY "X" "Y" ⟨"X service", "core", ["Y"]⟩
    (by decide) (by decide) (by decide) (by decide)

end Labctl

namespace Labctl

theorem cutFlagsOkListB_iff (maxDepth depth : Nat) (l : List DepTree) :
    cutFlagsOkListB maxDepth depth l = true ↔
      ∀ t ∈ l, cutFlagsOkB maxDepth depth t = true := by
  induction l with
  | nil => simp [cutFlagsOkListB]
  | cons t ts ih => simp [cutFlagsOkListB, ih]

theorem buildTree_flags (schemas : Schemas) (maxDepth : Nat) :
    ∀ fuel svc depth visited, maxDepth - depth ≤ fuel →
      cutFlagsOkB maxDepth depth
        (buildTree schemas maxDepth fuel svc depth visited) = true := by
  intro fuel
  induction fuel with
  | zero =>
      intro svc depth visited hfuel
      have hle : maxDepth ≤ depth := by omega
      simp only [buildTree]
      rw [if_pos (Or.inl hle)]
      simp [cutFlagsOkB]
  | succ fuel ih =>
      intro svc depth visited hfuel
      by_cases hguard : maxDepth ≤ depth ∨ svc ∈ visited
      · simp only [buildTree]
        rw [if_pos hguard]
        simp [cutFlagsOkB]
      · simp only [buildTree]
        rw [if_neg hguard]
        simp only [cutFlagsOkB]
        rw [cutFlagsOkListB_iff]
        intro t ht
        obtain ⟨d, _, rfl⟩ := List.mem_map.1 ht
        apply ih
        push_neg at hguard
        omega

/-- C10 (amended): in the tree returned by `get_dependency_tree`, a
cut-off node at nesting depth `k` carries `truncated = (k ≥ max_depth)`:
true exactly for the depth-limit cutoffs, and false for nodes cut off
because they were already visited on the current path at a depth below the
limit. -/
theorem getDependencyTree_flags (schemas : Schemas) (svc : SId)
    (maxDepth : Nat) (t : DepTree)
    (h : getDependencyTree schemas svc maxDepth = some t) :
    cutFlagsOkB maxDepth 0 t = true := by
  unfold getDependencyTree at h
  by_cases hk : (keysOf schemas).contains svc
  · rw [if_pos hk] at h
    injection h with h'
    rw [← h']
    exact buildTree_flags schemas maxDepth maxDepth svc 0 [] (by omega)
  · rw [if_neg hk] at h
    cases h

/-- Witness for the amended C10 on the self-loop store: the revisit cut is
carried with `truncated = false`, as the flag law predicts at depth 1. -/
theorem getDependencyTree_flags_witness :
    cutFlagsOkB 10 0 (DepTree.node "A" "A service" "core"
      [DepTree.cut "A" "A service" false]) = true :=
  getDependencyTree_flags exSelfLoop "A" 10
    (DepTree.node "A" "A service" "core" [DepTree.cut "A" "A service" false])
    rfl

/-- C10 counterexample: for the store where A depends on itself,
`get_dependency_tree("A", 10)` cuts the recursion at the revisited node A
(depth 1 < max_depth) yet carries `truncated = depth >= max_depth = False`
there — the tree contains a cut-off node whose `truncated` marker is not a
true value, contradicting the claim as stated. -/
theorem getDependencyTree_truncated_counterexample :
    (getDependencyTree exSelfLoop "A" 10).map hasFalseCut = some true := rfl

end Labctl

namespace Labctl

/-! ### C5 / C6 — environment synthesis -/

theorem find?_append_some {α : Type} {p : α → Bool} {l₁ : List α} {a : α}
    (l₂ : List α) (h : l₁.find? p = some a) : (l₁ ++ l₂).find? p = some a := by
  rw [List.find?_append, h]
  rfl

theorem find?_append_none {α : Type} {p : α → Bool} {l₁ : List α}
    (l₂ : List α) (h : l₁.find? p = none) :
    (l₁ ++ l₂).find? p = l₂.find? p := by
  rw [List.find?_append, h]
  rfl

theorem find_rendered {m : List (String × String)} {k v : String}
    (hnd : (m.map (·.1)).Nodup)
    (hparse : ∀ p ∈ m, parseEnvEntry (p.1 ++ "=" ++ p.2) = p)
    (hmem : (k, v) ∈ m) :
    (m.map (fun p => p.1 ++ "=" ++ p.2)).find?
      (fun s => (parseEnvEntry s).1 = k) = some (k ++ "=" ++ v) := by
  induction m with
  | nil => cases hmem
  | cons q rest ih =>
      simp only [List.map_cons, List.nodup_cons] at hnd
      have hqparse := hparse q (List.mem_cons_self q rest)
      by_cases hq : q.1 = k
      · have hkv : (k, v) = q := by
          rcases List.mem_cons.1 hmem with h | h
          · exact h
          · exfalso
            have hk : k ∈ rest.map (·.1) := List.mem_map.2 ⟨(k, v), h, rfl⟩
            rw [← hq] at hk
            exact hnd.1 hk
        have hpos : decide ((parseEnvEntry (q.1 ++ "=" ++ q.2)).1 = k) = true := by
          rw [hqparse]
          simpa using hq
        rw [List.map_cons]
        have hfc := List.find?_cons_of_pos
          (p := fun s => decide ((parseEnvEntry s).1 = k))
          (List.map (fun p => p.1 ++ "=" ++ p.2) rest) hpos
        rw [hfc, ← hkv]
      · rw [List.map_cons, List.find?_cons_of_neg _ (by simp [hqparse, hq])]
        refine ih hnd.2 (fun p hp => hparse p (List.mem_cons_of_mem _ hp)) ?_
        rcases List.mem_cons.1 hmem with h | h
        · exact absurd (congrArg Prod.fst h).symm hq
        · exact h

/-- C5 (amended): the service's `custom_env` entries are appended after all
schema-driven entries rather than replacing them; reading the list the way
docker compose applies it (the last entry for a key wins), a key carried by
`custom_env` is effectively bound to its `custom_env` value, whatever the
schema-driven entries said.  (The key-shape hypothesis `hparse` says the
custom keys survive the `KEY=VALUE` round trip, i.e. contain no `=`.) -/
theorem custom_env_effective (subst : String → String) (cfg : GenConfig)
    (sid : String) (sc : SvcDict) (envs : List ComposeEnvSource)
    (k v : String)
    (hnd : ((custom_environment cfg sid).map (·.1)).Nodup)
    (hparse : ∀ p ∈ custom_environment cfg sid,
      parseEnvEntry (p.1 ++ "=" ++ p.2) = p)
    (hmem : (k, v) ∈ custom_environment cfg sid) :
    lastBinding (build_environment_from_schema subst cfg sid sc envs) k =
      some v := by
  unfold lastBinding build_environment_from_schema
  rw [List.reverse_append, ← List.map_reverse]
  have hnd' : ((custom_environment cfg sid).reverse.map (·.1)).Nodup := by
    rw [List.map_reverse]
    exact List.nodup_reverse.2 hnd
  have hfind := find_rendered hnd'
    (fun p hp => hparse p (List.mem_reverse.1 hp)) (List.mem_reverse.2 hmem)
  rw [find?_append_some _ hfind]
  have hp := hparse _ hmem
  show some (parseEnvEntry (k ++ "=" ++ v)).2 = some v
  rw [hp]

/-- Witness for the amended C5: with schema-driven `FOO=bar` and
`custom_env = FOO↦baz`, the effective binding of FOO is baz. -/
theorem custom_env_effective_witness :
    lastBinding (build_environment_from_schema (fun s => s) exCfgFoo "svc" []
      exEnvFoo) "FOO" = some "baz" :=
  custom_env_effective (fun s => s) exCfgFoo "svc" [] exEnvFoo "FOO" "baz"
    (by decide) (by decide) (by decide)

/-- C5 counterexample: the synthesized fragment still contains the
schema-driven string `FOO=bar` — the custom entry `FOO=baz` is appended
after it, not substituted for it, so the claim's "overrides (replaces)…
no FOO=bar binding remains" is false of the produced list itself. -/
theorem custom_env_not_replaced_counterexample :
    build_environment_from_schema (fun s => s) exCfgFoo "svc" [] exEnvFoo =
      ["FOO=bar", "FOO=baz"] ∧
    "FOO=bar" ∈ build_environment_from_schema (fun s => s) exCfgFoo "svc" []
      exEnvFoo :=
  ⟨rfl, by decide⟩

/-- C6 (amended): per `ComposeEnvSource`, the generator applies the first
populated strategy in the source order `from_field`, `from_service`,
literal `value`, `template`; the final `value_map and from_field` branch
can never fire (a truthy `from_field` is captured by the first branch), so
an entry resolved by none of the first four stays unset.  In particular a
populated `from_field` wins over a literal `value`. -/
theorem env_resolution_order (subst : String → String) (cfg : GenConfig)
    (sc : SvcDict) (e : ComposeEnvSource) :
    (strTruthy e.from_field = true →
      resolveEnvValue subst cfg sc e =
        resolveFromField cfg sc (e.from_field.getD "")) ∧
    (strTruthy e.from_field = false → strTruthy e.from_service = true →
      resolveEnvValue subst cfg sc e =
        some (.str (fromServiceRef (e.from_service.getD "")))) ∧
    (strTruthy e.from_field = false → strTruthy e.from_service = false →
      strTruthy e.value = true →
      resolveEnvValue subst cfg sc e = some (.str (e.value.getD ""))) ∧
    (strTruthy e.from_field = false → strTruthy e.from_service = false →
      strTruthy e.value = false → strTruthy e.template = true →
      resolveEnvValue subst cfg sc e =
        some (.str (subst (e.template.getD "")))) ∧
    (strTruthy e.from_field = false → strTruthy e.from_service = false →
      strTruthy e.value = false → strTruthy e.template = false →
      resolveEnvValue subst cfg sc e = Option.none) := by
  refine ⟨?_, ?_, ?_, ?_, ?_⟩
  · intro h1
    simp [resolveEnvValue, h1]
  · intro h1 h2
    simp [resolveEnvValue, h1, h2]
  · intro h1 h2 h3
    simp [resolveEnvValue, h1, h2, h3]
  · intro h1 h2 h3 h4
    simp [resolveEnvValue, h1, h2, h3, h4]
  · intro h1 h2 h3 h4
    simp [resolveEnvValue, h1, h2, h3, h4]

/-- Witness for the amended C6: on an entry с both a literal value and a
resolvable `from_field`, resolution takes the `from_field` branch. -/
theorem env_resolution_order_witness :
    resolveEnvValue (fun s => s) {} exScPort exEnvBoth =
      resolveFromField {} exScPort "port" := by
  have h := (env_resolution_order (fun s => s) {} exScPort exEnvBoth).1
    (by decide)
  exact h

/-- C6 counterexample: with `value="lit"` and a `from_field` resolving to
`8080`, the synthesized entry is `KEY=8080`, not `KEY=lit` — the literal
value does not win, contradicting the claimed resolution order. -/
theorem literal_value_not_first_counterexample :
    build_environment_from_schema (fun s => s) {} "svc" exScPort
      [exEnvBoth] = ["KEY=8080"] ∧
    "KEY=lit" ∉ build_environment_from_schema (fun s => s) {} "svc" exScPort
      [exEnvBoth] :=
  ⟨rfl, by decide⟩

end Labctl

namespace Labctl

/-! ### C7 — port conflicts -/

theorem two_mem_length {α : Type} {l : List α} {a b : α}
    (ha : a ∈ l) (hb : b ∈ l) (hne : a ≠ b) : 1 < l.length := by
  match l with
  | [] => cases ha
  | [x] =>
      have h1 : a = x := by simpa using ha
      have h2 : b = x := by simpa using hb
      exact absurd (h1.trans h2.symm) hne
  | x :: y :: t => simp [Nat.lt_add_of_pos_left]

theorem assoc_find_eq {α β : Type} [DecidableEq α] {l : List (α × β)}
    {k : α} {v : β} (hnd : (l.map (·.1)).Nodup) (hmem : (k, v) ∈ l) :
    l.find? (fun p => p.1 = k) = some (k, v) := by
  induction l with
  | nil => cases hmem
  | cons q rest ih =>
      simp only [List.map_cons, List.nodup_cons] at hnd
      rcases List.mem_cons.1 hmem with h | h
      · rw [← h]
        exact List.find?_cons_of_pos _ (by simp)
      · have hne : ¬ (q.1 = k) := by
          intro he
          have hk : k ∈ rest.map (·.1) := List.mem_map.2 ⟨(k, v), h, rfl⟩
          rw [← he] at hk
          exact hnd.1 hk
        rw [List.find?_cons_of_neg _ (by simpa using hne)]
        exact ih hnd.2 h

theorem find?_map_upd (p : Int) (sid : String) :
    ∀ (u : List (Int × List String)) (q : Int),
    (u.map (fun e => if e.1 = p then (e.1, e.2 ++ [sid]) else e)).find?
        (fun e => e.1 = q) =
      (u.find? (fun e => e.1 = q)).map
        (fun e => if e.1 = p then (e.1, e.2 ++ [sid]) else e) := by
  intro u q
  induction u with
  | nil => rfl
  | cons e u' ih =>
      have hfst : (if e.1 = p then (e.1, e.2 ++ [sid]) else e).1 = e.1 := by
        by_cases h : e.1 = p <;> simp [h]
      by_cases hq : e.1 = q
      · rw [List.map_cons,
          List.find?_cons_of_pos _ (by rw [hfst]; simpa using hq),
          List.find?_cons_of_pos _ (by simpa using hq)]
        rfl
      · rw [List.map_cons,
          List.find?_cons_of_neg _ (by rw [hfst]; simpa using hq),
          List.find?_cons_of_neg _ (by simpa using hq), ih]

theorem keys_map_upd (p : Int) (sid : String)
    (u : List (Int × List String)) :
    (u.map (fun e => if e.1 = p then (e.1, e.2 ++ [sid]) else e)).map (·.1) =
      u.map (·.1) := by
  rw [List.map_map]
  apply List.map_congr_left
  intro e _
  by_cases h : e.1 = p <;> simp [h]

theorem addUsage_entry (u : List (Int × List String)) (p : Int)
    (sid : String) (hnd : (u.map (·.1)).Nodup) :
    ((addUsage u p sid).map (·.1)).Nodup ∧
    ∀ q, (((addUsage u p sid).find? (fun e => e.1 = q)).map (·.2)).getD [] =
      (((u.find? (fun e => e.1 = q)).map (·.2)).getD []) ++
        (if q = p then [sid] else []) := by
  by_cases hk : p ∈ u.map (·.1)
  · have haddeq : addUsage u p sid =
        u.map (fun e => if e.1 = p then (e.1, e.2 ++ [sid]) else e) := by
      unfold addUsage
      rw [if_pos (by simpa using hk)]
    rw [haddeq]
    refine ⟨by rw [keys_map_upd]; exact hnd, ?_⟩
    intro q
    rw [find?_map_upd]
    cases hfq : u.find? (fun e => e.1 = q) with
    | some e =>
        have heq : e.1 = q := by simpa using List.find?_some hfq
        by_cases hqp : q = p
        · simp [heq, hqp]
        · have : ¬ (e.1 = p) := by rw [heq]; exact hqp
          simp [this, hqp]
    | none =>
        by_cases hqp : q = p
        · exfalso
          rw [List.find?_eq_none] at hfq
          obtain ⟨e, hmem, hp'⟩ := List.mem_map.1 hk
          have hcon : decide (e.1 = q) = true := by
            simp only [decide_eq_true_eq]
            rw [hqp]
            exact hp'
          exact hfq e hmem hcon
        · simp [hqp]
  · have haddeq : addUsage u p sid = u ++ [(p, [sid])] := by
      unfold addUsage
      rw [if_neg (by simpa using hk)]
    rw [haddeq]
    have hfind_none : u.find? (fun e => e.1 = p) = none := by
      rw [List.find?_eq_none]
      intro e hmem hep
      exact hk (List.mem_map.2 ⟨e, hmem, by simpa using hep⟩)
    constructor
    · rw [List.map_append]
      refine List.Nodup.append hnd (by simp) ?_
      intro x hx1 hx2
      have hxp : x = p := by simpa using hx2
      rw [hxp] at hx1
      exact hk hx1
    · intro q
      by_cases hqp : q = p
      · rw [hqp, find?_append_none _ hfind_none]
        simp [hfind_none]
      · cases hfq : u.find? (fun e => e.1 = q) with
        | some e =>
            rw [find?_append_some _ hfq]
            simp [hqp]
        | none =>
            rw [find?_append_none _ hfq]
            have : List.find? (fun e => e.1 = q) [(p, [sid])] = none := by
              rw [List.find?_eq_none]
              intro e hmem hep
              have he : e = (p, [sid]) := by simpa using hmem
              rw [he] at hep
              have hpq : p = q := by simpa using hep
              exact hqp hpq.symm
            simp [this, hqp]

theorem foldAddUsage_spec :
    ∀ (pairs : List (Int × String)) (u : List (Int × List String)),
    (u.map (·.1)).Nodup →
    (((pairs.foldl (fun acc pp => addUsage acc pp.1 pp.2) u).map (·.1)).Nodup ∧
     ∀ p, (((pairs.foldl (fun acc pp => addUsage acc pp.1 pp.2) u).find?
         (fun e => e.1 = p)).map (·.2)).getD [] =
       (((u.find? (fun e => e.1 = p)).map (·.2)).getD []) ++
         (pairs.filter (fun pp => pp.1 = p)).map (·.2)) := by
  intro pairs
  induction pairs with
  | nil =>
      intro u hnd
      exact ⟨hnd, fun p => by simp⟩
  | cons pp rest ih =>
      intro u hnd
      obtain ⟨hnd', hentry'⟩ := addUsage_entry u pp.1 pp.2 hnd
      obtain ⟨hnd'', hentry''⟩ := ih (addUsage u pp.1 pp.2) hnd'
      refine ⟨hnd'', ?_⟩
      intro p
      rw [List.foldl_cons] at *
      rw [hentry'' p, hentry' p, List.filter_cons]
      by_cases hpp : pp.1 = p
      · simp [hpp, List.append_assoc]
      · have hne : ¬ (p = pp.1) := fun h => hpp h.symm
        simp [hpp, hne]

end Labctl

namespace Labctl

theorem length_filter_key_le_one {α β : Type} [DecidableEq α]
    {l : List (α × β)} (h : (l.map (·.1)).Nodup) (k : α) :
    (l.filter (fun pp => pp.1 = k)).length ≤ 1 := by
  induction l with
  | nil => simp
  | cons a t ih =>
      simp only [List.map_cons, List.nodup_cons] at h
      rw [List.filter_cons]
      by_cases hk : a.1 = k
      · rw [if_pos (by simpa using hk)]
        have hnil : t.filter (fun pp => pp.1 = k) = [] := by
          rw [List.filter_eq_nil_iff]
          intro b hb hbk
          have hbk' : b.1 = k := by simpa using hbk
          have : a.1 ∈ t.map (·.1) :=
            List.mem_map.2 ⟨b, hb, by rw [hbk', hk]⟩
          exact h.1 this
        rw [hnil]
        simp
      · rw [if_neg (by simpa using hk)]
        exact ih h.2

/-- C7: `_check_port_conflicts` reports an error naming both services
whenever two distinct enabled services carry the same (truthy) value under
any of the keys `port`, `web_port`, `http_port`, `external_port`,
`dns_port`; and when all collected port values are pairwise distinct, it
reports nothing. -/
theorem port_conflicts_spec :
    (∀ (services : List (String × BaseServiceConfig)) (s1 s2 : String)
        (c1 c2 : BaseServiceConfig) (p : Int),
      (s1, c1) ∈ get_enabled_services services →
      (s2, c2) ∈ get_enabled_services services → s1 ≠ s2 →
      p ∈ collectPorts c1 → p ∈ collectPorts c2 →
      ∃ msg ∈ check_port_conflicts (get_enabled_services services),
        strContains msg s1 ∧ strContains msg s2) ∧
    (∀ services : List (String × BaseServiceConfig),
      ((portPairs (get_enabled_services services)).map (·.1)).Nodup →
      check_port_conflicts (get_enabled_services services) = []) := by
  constructor
  · intro services s1 s2 c1 c2 p hm1 hm2 hne hp1 hp2
    obtain ⟨hund, hentry⟩ :=
      foldAddUsage_spec (portPairs (get_enabled_services services)) [] (by simp)
    have hpu : portUsage (get_enabled_services services) =
        (portPairs (get_enabled_services services)).foldl
          (fun u pp => addUsage u pp.1 pp.2) [] := rfl
    have hLdef : (((portUsage (get_enabled_services services)).find?
          (fun e => e.1 = p)).map (·.2)).getD [] =
        ((portPairs (get_enabled_services services)).filter
          (fun pp => pp.1 = p)).map (·.2) := by
      have h1 := hentry p
      rw [← hpu] at h1
      simpa using h1
    have hpair1 : (p, s1) ∈ portPairs (get_enabled_services services) := by
      unfold portPairs
      refine List.mem_flatten.2 ⟨(collectPorts c1).map (fun q => (q, s1)),
        List.mem_map.2 ⟨(s1, c1), hm1, rfl⟩, List.mem_map.2 ⟨p, hp1, rfl⟩⟩
    have hpair2 : (p, s2) ∈ portPairs (get_enabled_services services) := by
      unfold portPairs
      refine List.mem_flatten.2 ⟨(collectPorts c2).map (fun q => (q, s2)),
        List.mem_map.2 ⟨(s2, c2), hm2, rfl⟩, List.mem_map.2 ⟨p, hp2, rfl⟩⟩
    have hs1 : s1 ∈ (((portUsage (get_enabled_services services)).find?
        (fun e => e.1 = p)).map (·.2)).getD [] := by
      rw [hLdef]
      exact List.mem_map.2 ⟨(p, s1), List.mem_filter.2 ⟨hpair1, by simp⟩, rfl⟩
    have hs2 : s2 ∈ (((portUsage (get_enabled_services services)).find?
        (fun e => e.1 = p)).map (·.2)).getD [] := by
      rw [hLdef]
      exact List.mem_map.2 ⟨(p, s2), List.mem_filter.2 ⟨hpair2, by simp⟩, rfl⟩
    cases hfind : (portUsage (get_enabled_services services)).find?
        (fun e => e.1 = p) with
    | none =>
        rw [hfind] at hs1
        simp at hs1
    | some entry =>
        rw [hfind] at hs1 hs2
        simp only [Option.map_some', Option.getD_some] at hs1 hs2
        have hlen : 1 < entry.2.length := two_mem_length hs1 hs2 hne
        have hmem_entry : entry ∈ portUsage (get_enabled_services services) :=
          List.mem_of_find?_eq_some hfind
        have hfilter : entry ∈ (portUsage (get_enabled_services services)).filter
            (fun e => 1 < e.2.length) :=
          List.mem_filter.2 ⟨hmem_entry, by simpa using hlen⟩
        refine ⟨"Port " ++ toString entry.1 ++ " conflict: used by services " ++
          joinSep ", " entry.2, ?_, ?_, ?_⟩
        · unfold check_port_conflicts
          exact List.mem_map.2 ⟨entry, hfilter, rfl⟩
        · exact strContains_append_left _ (joinSep_mentions ", " hs1)
        · exact strContains_append_left _ (joinSep_mentions ", " hs2)
  · intro services hnodup
    obtain ⟨hund, hentry⟩ :=
      foldAddUsage_spec (portPairs (get_enabled_services services)) [] (by simp)
    have hpu : portUsage (get_enabled_services services) =
        (portPairs (get_enabled_services services)).foldl
          (fun u pp => addUsage u pp.1 pp.2) [] := rfl
    have hfilter_nil : (portUsage (get_enabled_services services)).filter
        (fun e => 1 < e.2.length) = [] := by
      rw [List.filter_eq_nil_iff]
      intro e hmem
      have hfind : (portUsage (get_enabled_services services)).find?
          (fun q => q.1 = e.1) = some e :=
        assoc_find_eq (by rw [hpu]; exact hund) (by simpa using hmem)
      have hL : e.2 = ((portPairs (get_enabled_services services)).filter
          (fun pp => pp.1 = e.1)).map (·.2) := by
        have h1 := hentry e.1
        rw [← hpu, hfind] at h1
        simpa using h1
      have hlen : e.2.length ≤ 1 := by
        rw [hL, List.length_map]
        exact length_filter_key_le_one hnodup e.1
      simp only [decide_eq_true_eq]
      omega
    unfold check_port_conflicts
    rw [hfilter_nil]
    rfl

/-- Witness for C7: two enabled services both on port 5432 produce an
error naming both. -/
theorem port_conflicts_spec_witness :
    ∃ msg ∈ check_port_conflicts (get_enabled_services
      [("a", { enabled := true, port := some 5432 }),
       ("b", { enabled := true, port := some 5432 })]),
      strContains msg "a" ∧ strContains msg "b" :=
  port_conflicts_spec.1
    [("a", { enabled := true, port := some 5432 }),
     ("b", { enabled := true, port := some 5432 })]
    "a" "b" { enabled := true, port := some 5432 }
    { enabled := true, port := some 5432 } 5432
    (by decide) (by decide) (by decide) (by decide) (by decide)

end Labctl

namespace Labctl

/-! ### C8 — service URLs -/

/-- C8: `get_service_urls` yields exactly one URL per enabled service
(its keys are exactly the enabled services, without duplicates), which is
`https://` + the explicit truthy `domain` field when present, and
`https://{service_id}.{core.domain}` otherwise. -/
theorem get_service_urls_spec (cfg : LabConfig)
    (hnd : (cfg.services.map (·.1)).Nodup) :
    ((get_service_urls cfg).map (·.1)).Nodup ∧
    ∀ sid c, (sid, c) ∈ cfg.services → c.enabled = true →
      (get_service_urls cfg).find? (fun p => p.1 = sid) =
        some (sid,
          if strTruthy c.domain then "https://" ++ c.domain.getD ""
          else "https://" ++ (sid ++ "." ++ cfg.core.domain)) := by
  have hkeys : (get_service_urls cfg).map (·.1) =
      (get_enabled_services cfg.services).map (·.1) := by
    unfold get_service_urls
    rw [List.map_map]
    rfl
  have hennd : ((get_enabled_services cfg.services).map (·.1)).Nodup :=
    hnd.sublist (List.Sublist.map _ (List.filter_sublist _))
  refine ⟨by rw [hkeys]; exact hennd, ?_⟩
  intro sid c hmem hen
  have hmem' : (sid, c) ∈ get_enabled_services cfg.services :=
    List.mem_filter.2 ⟨hmem, by simpa using hen⟩
  have hurl : (sid,
      if strTruthy c.domain then "https://" ++ c.domain.getD ""
      else "https://" ++ (sid ++ "." ++ cfg.core.domain)) ∈
      get_service_urls cfg := by
    unfold get_service_urls
    exact List.mem_map.2 ⟨(sid, c), hmem', rfl⟩
  exact assoc_find_eq (by rw [hkeys]; exact hennd) hurl

/-- Witness for C8: core domain `example.com`, `grafana` enabled without
an explicit domain ⇒ `https://grafana.example.com`. -/
theorem get_service_urls_spec_witness :
    (get_service_urls exCfgUrls).find? (fun p => p.1 = "grafana") =
      some ("grafana", "https://grafana.example.com") := by
  have h := (get_service_urls_spec exCfgUrls (by decide)).2 "grafana"
    { enabled := true } (by decide) rfl
  exact h.trans (by decide)

/-! ### C9 — the enabled-field invariant -/

theorem length_filter_eqkey_le_one {α : Type} (key : α → String)
    {l : List α} (h : (l.map key).Nodup) (k : String) :
    (l.filter (fun f => key f == k)).length ≤ 1 := by
  induction l with
  | nil => simp
  | cons a t ih =>
      simp only [List.map_cons, List.nodup_cons] at h
      rw [List.filter_cons]
      by_cases hk : key a = k
      · rw [if_pos (by simpa using hk)]
        have hnil : t.filter (fun f => key f == k) = [] := by
          rw [List.filter_eq_nil_iff]
          intro b hb hbk
          have hbk' : key b = k := by simpa using hbk
          exact h.1 (List.mem_map.2 ⟨b, hb, by rw [hbk', hk]⟩)
        rw [hnil]
        simp
      · rw [if_neg (by simpa using hk)]
        exact ih h.2

/-- C9 (amended): a schema document without a field keyed `"enabled"` is
rejected, and every accepted document has exactly one field keyed
`"enabled"` — but the validators never inspect that field's type, so it
need not be boolean. -/
theorem enabled_field_spec :
    (∀ d : ServiceSchemaDoc, validate_enabled_field d.fields = false →
      validateServiceSchemaDoc d = false) ∧
    (∀ d : ServiceSchemaDoc, validateServiceSchemaDoc d = true →
      (d.fields.filter (fun f => f.key == "enabled")).length = 1) := by
  constructor
  · intro d h
    unfold validateServiceSchemaDoc
    rw [h]
    simp
  · intro d h
    unfold validateServiceSchemaDoc at h
    simp only [Bool.and_eq_true] at h
    obtain ⟨⟨⟨_, hnd⟩, hen⟩, _⟩ := h
    have hnd' : (d.fields.map (·.key)).Nodup := by simpa using hnd
    have hen' : ∃ f ∈ d.fields, f.key = "enabled" := by
      unfold validate_enabled_field at hen
      rw [List.any_eq_true] at hen
      obtain ⟨f, hf, hfk⟩ := hen
      exact ⟨f, hf, by simpa using hfk⟩
    obtain ⟨f, hf, hfk⟩ := hen'
    have hmemf : f ∈ d.fields.filter (fun f => f.key == "enabled") :=
      List.mem_filter.2 ⟨hf, by simp [hfk]⟩
    have hle : (d.fields.filter (fun f => f.key == "enabled")).length ≤ 1 :=
      length_filter_eqkey_le_one (fun f : FieldSchema => f.key) hnd' "enabled"
    have hpos : 0 < (d.fields.filter (fun f => f.key == "enabled")).length :=
      List.length_pos.2 (List.ne_nil_of_mem hmemf)
    omega

/-- Witness for the amended C9: a document with no fields is rejected; the
accepted document whose `enabled` field is a string has exactly one
`enabled` field. -/
theorem enabled_field_spec_witness :
    validateServiceSchemaDoc
      { id := "svc", name := "Svc", category := "core", fields := [] } =
      false ∧
    (exDocStringEnabled.fields.filter
      (fun f => f.key == "enabled")).length = 1 :=
  ⟨enabled_field_spec.1 _ (by decide),
   enabled_field_spec.2 exDocStringEnabled (by decide)⟩

/-- C9 counterexample: the document whose single field is keyed `enabled`
with type *string* passes every modeled schema validator — it is accepted
although it has no boolean `enabled` field, so the claimed invariant
"every accepted schema has a boolean `enabled` field" is false of the
validation code. -/
theorem enabled_type_not_checked_counterexample :
    validateServiceSchemaDoc exDocStringEnabled = true ∧
    exDocStringEnabled.fields.any
      (fun f => f.key == "enabled" && f.type == FieldType.boolean) = false :=
  ⟨by decide, by decide⟩

end Labctl
